import Mathlib

/-! ioLib: buffered file reading, line extraction, block transfer, the formatter
and the string utilities

A shallow embedding of `src/ioLib.cpp` / `src/ioLib.h`.

Conventions of the embedding

* A byte (`unsigned char`, or the bit pattern of a `char`) is a `Fin 256`.
* A pointer is modelled by the value it points at, so the `== NULL` guards of
  the source have no counterpart: a `File` value is a non-null, open handle and
  a `List Byte` is a non-null caller buffer.
* A function that mutates `*file` or a caller buffer returns the new value next
  to its C return value.
* The C stream `FILE*` is the record `CFILE`: the bytes of the resource, the
  read offset, and the number of `fread` calls made on the stream so far (so
  that "no read happened" can be stated).  A stream that `fopen` returns never
  fails; a failing sink for `putc` is described by the field `putcLeft`, and
  the field `putcs` counts the `putc` calls made.
* A C string is the list of the bytes of the memory block that starts at the
  pointer; a function that reads past the end of that list (no termination byte
  in the block) has no defined result, which is `none`.
* `int` values are `Int`; the one place where the source overflows an `int`
  (`-value` in `intToStr`) wraps around in 32 bits.  Division and remainder of
  `int` truncate towards zero (`Int.tdiv`, `Int.tmod`).
* The variadic arguments of `writeFormatted` are a list of `Arg`, one entry per
  argument in the order of the call.  Reading the next argument at a type other
  than the one it was passed with has no defined result; this includes every
  read of a `%c`, which the source does at the type `char`.
* `unsigned int` / `size_t` fields are `Nat`; every value stored in them by the
  functions below is at most `BUFFER_SIZE`, so no wrap-around occurs.
-/

namespace IoLib

/-! ## The program -/

/-- One `unsigned char`. -/
abbrev Byte := Fin 256

/-- Capacity of the read buffer: `constexpr size_t BUFFER_SIZE = 512;` -/
def BUFFER_SIZE : Nat := 512

/-- End-of-file and failure signal: `constexpr int FILE_END = -1;` -/
def FILE_END : Int := -1

/-- Refusal signal of the refill: `constexpr int UPDATE_BUFFER_DENIED = -1;` -/
def UPDATE_BUFFER_DENIED : Int := -1

/-- The value of `(size_t) -1`, which is what `FILE_END` and `EOF` become when
they are converted to the `size_t` return type of the block functions. -/
def SIZE_MAX : Nat := 2 ^ 64 - 1

/-- The newline character. -/
def NEWLINE : Int := 10

/-- C library stream: the bytes of the resource, the current read offset and
the number of `fread` calls performed on it.  The field `putcLeft` describes the
sink behind a stream opened for writing: `none` is a sink that never fails (what
`fopen` gives), `some n` one that takes `n` more `putc` calls and fails on
every later one.  The field `putcs` counts the `putc` calls made on the stream,
the failed ones included (so that "no write was attempted" can be stated). -/
structure CFILE where
  content : List Byte
  offset : Nat
  freads : Nat
  putcLeft : Option Nat := none
  putcs : Nat := 0
deriving DecidableEq

/-- The `struct File` of the source. -/
structure File where
  buffer : List Byte
  cfile : CFILE
  position : Nat
  correctBufferValues : Nat
  fileEndReached : Int
  mode : Char
deriving DecidableEq

/-- Writing the bytes `src` at the start of the memory block `dest`. -/
def store (dest src : List Byte) : List Byte :=
  src ++ dest.drop src.length

/-- C library `fopen` on a resource that holds `resource` (`none`: it does not
exist).  `"r"` needs the resource, `"w"` truncates it, `"a"` keeps it. -/
def fopen (resource : Option (List Byte)) (mode : Char) : Option CFILE :=
  if mode = 'r' then resource.map (fun d => { content := d, offset := 0, freads := 0 })
  else if mode = 'w' then some { content := [], offset := 0, freads := 0 }
  else if mode = 'a' then some { content := resource.getD [], offset := 0, freads := 0 }
  else none

/-- C library `fread(ptr, typeSize, count, stream)`: the bytes transferred, the
number of complete elements read, and the stream afterwards. -/
def fread (typeSize count : Nat) (c : CFILE) : List Byte × Nat × CFILE :=
  let bytes := (c.content.drop c.offset).take (typeSize * count)
  (bytes, bytes.length / typeSize,
    { c with offset := c.offset + bytes.length, freads := c.freads + 1 })

/-- C library `fwrite(ptr, typeSize, count, stream)` on a stream opened for
writing or appending: the number of elements written and the stream afterwards. -/
def fwrite (src : List Byte) (typeSize count : Nat) (c : CFILE) : Nat × CFILE :=
  let bytes := src.take (typeSize * count)
  (bytes.length / typeSize, { c with content := c.content ++ bytes })

/-- Source `File* openFile(const char* fileName, const char mode)`; the named
resource is given by its content.  `calloc` zero-fills the structure. -/
def openFile (resource : Option (List Byte)) (mode : Char) : Option File :=
  if mode ≠ 'r' ∧ mode ≠ 'w' ∧ mode ≠ 'a' then none
  else
    match fopen resource mode with
    | none => none
    | some c =>
      some { buffer := List.replicate BUFFER_SIZE 0
             cfile := c
             position := BUFFER_SIZE
             correctBufferValues := 0
             fileEndReached := 0
             mode := mode }

/-- Source `void closeFile(File* file)`: the handle is released; the value is
the content of the resource once the stream is closed. -/
def closeFile (file : File) : List Byte :=
  file.cfile.content

/-- Source `size_t readBufferFromFile(File*, size_t typeSize, size_t count,
void* buffer)`: return value, handle afterwards, caller buffer afterwards.
`FILE_END` is returned as a `size_t`. -/
def readBufferFromFile (file : File) (typeSize count : Nat) (buffer : List Byte) :
    Nat × File × List Byte :=
  if file.mode ≠ 'r' then (SIZE_MAX, file, buffer)
  else
    let r := fread typeSize count file.cfile
    (if r.2.1 ≠ count then SIZE_MAX else r.2.1, { file with cfile := r.2.2 }, store buffer r.1)

/-- Source `size_t writeBufferToFile(File*, size_t typeSize, size_t count,
void* buffer)`: return value and handle afterwards.  The comparison
`result == EOF` is made in `size_t`. -/
def writeBufferToFile (file : File) (typeSize count : Nat) (buffer : List Byte) :
    Nat × File :=
  if file.mode ≠ 'w' ∧ file.mode ≠ 'a' then (SIZE_MAX, file)
  else
    let r := fwrite buffer typeSize count file.cfile
    (if r.1 = SIZE_MAX then SIZE_MAX else r.1, { file with cfile := r.2 })

/-- Source `int updateBuffer(File* file)`: return value and handle afterwards. -/
def updateBuffer (file : File) : Int × File :=
  if file.mode ≠ 'r' then (UPDATE_BUFFER_DENIED, file)
  else if file.position < BUFFER_SIZE then (UPDATE_BUFFER_DENIED, file)
  else
    let r := fread 1 BUFFER_SIZE file.cfile
    (0, { file with
            buffer := store file.buffer r.1
            cfile := r.2.2
            correctBufferValues := r.2.1
            position := 0 })

/-- Source `int nextChar(File* file)` with a bound on the depth of its
self-call: `none` when the bound is used up before the function returns.
The byte read is `buffer[position]` (the source increments first and reads
`buffer[position - 1]`); an index past the buffer, which no reachable state
produces, reads as 0. -/
def nextCharFuel : Nat → File → Option (Int × File)
  | 0, _ => none
  | fuel + 1, file =>
    if file.mode ≠ 'r' then some (FILE_END, file)
    else if file.position < file.correctBufferValues then
      some (((file.buffer.getD file.position 0).val : Int),
            { file with position := file.position + 1 })
    else if file.position = BUFFER_SIZE then
      nextCharFuel fuel (updateBuffer file).2
    else
      some (FILE_END, { file with fileEndReached := 1 })

/-- Source `int nextChar(File* file)`: return value and handle afterwards.  Two
levels of the call suffice (`nextCharFuel_total` below), the default is never
used. -/
def nextChar (file : File) : Int × File :=
  (nextCharFuel 2 file).getD (FILE_END, file)

/-- Conversion of an `int` to the byte stored by `line[i] = currentChar`. -/
def toByte (c : Int) : Byte :=
  ⟨(c % 256).toNat, by omega⟩

/-- Outcome of `nextLine`: whether `line` (true) or `NULL` (false) is returned,
the handle afterwards, and the caller's `line` buffer afterwards. -/
structure LineResult where
  ret : Bool
  file : File
  line : List Byte
deriving DecidableEq

/-- The `for` loop of `nextLine`: `n` iterations remain, `i` is the index.  A
store past the end of the caller's buffer is dropped. -/
def nextLineLoop (term : Byte) : Nat → Nat → File → List Byte → LineResult
  | 0, _, file, line => { ret := false, file := file, line := line }
  | n + 1, i, file, line =>
    let r := nextChar file
    if r.1 = NEWLINE ∨ r.1 = FILE_END then
      { ret := true, file := r.2, line := line.set i term }
    else
      nextLineLoop term n (i + 1) r.2 (line.set i (toByte r.1))

/-- Source `char* nextLine(File* file, char* line, size_t maxLength)`, with the
global `STRING_TERMINATION` passed as `term`. -/
def nextLine (term : Byte) (file : File) (line : List Byte) (maxLength : Nat) : LineResult :=
  if maxLength = 0 ∨ file.mode ≠ 'r' then { ret := false, file := file, line := line }
  else if file.fileEndReached ≠ 0 then { ret := false, file := file, line := line }
  else nextLineLoop term (maxLength - 1) 0 file line

/-- The returned values of `n` successive `nextChar` calls, and the handle
after them. -/
def nextChars : Nat → File → List Int × File
  | 0, file => ([], file)
  | n + 1, file =>
    let r := nextChar file
    let rs := nextChars n r.2
    (r.1 :: rs.1, rs.2)

/-! ### The write path -/

/-- C library `putc(ch, stream)` on a stream opened for writing or appending:
the byte is appended and returned, or `EOF` (-1) is returned and nothing is
written when the sink fails. -/
def putc (b : Byte) (c : CFILE) : Int × CFILE :=
  match c.putcLeft with
  | some 0 => (-1, { c with putcs := c.putcs + 1 })
  | some (n + 1) =>
    ((b.val : Int),
      { c with content := c.content ++ [b], putcLeft := some n, putcs := c.putcs + 1 })
  | none => ((b.val : Int), { c with content := c.content ++ [b], putcs := c.putcs + 1 })

/-- Source `int writeChar(File* file, char ch)`: return value and handle
afterwards; `ch` is given by its byte `(unsigned char) ch`. -/
def writeChar (file : File) (ch : Byte) : Int × File :=
  if file.mode ≠ 'w' ∧ file.mode ≠ 'a' then (FILE_END, file)
  else
    let r := putc ch file.cfile
    (if r.1 = (ch.val : Int) then r.1 else FILE_END, { file with cfile := r.2 })

/-- The `for` loop of `writeString`, from the byte `currentChar` points at.  The
source compares an `unsigned char` with the `char` `STRING_TERMINATION`; this is
the comparison of the two bytes when the termination byte is below 128. -/
def writeStringLoop (term : Byte) : List Byte → File → Option (Int × File)
  | [], _ => none
  | c :: cs, file =>
    if c ≠ term then
      let r := writeChar file c
      if r.1 = FILE_END then some (FILE_END, r.2) else writeStringLoop term cs r.2
    else some (0, file)

/-- Source `int writeString(File* file, const char* str)`. -/
def writeString (term : Byte) (file : File) (str : List Byte) : Option (Int × File) :=
  if file.mode ≠ 'w' ∧ file.mode ≠ 'a' then some (FILE_END, file)
  else writeStringLoop term str file

/-- The `for` loop of `writeLine` and the code after it, from the byte
`currentChar` points at.  The comparison with `STRING_TERMINATION` is that of
`writeString`; the byte 10 is the newline. -/
def writeLineLoop (term : Byte) : List Byte → File → Option (Int × File)
  | [], _ => none
  | c :: cs, file =>
    if c ≠ term then
      let r := writeChar file c
      if r.1 = FILE_END then some (FILE_END, r.2) else writeLineLoop term cs r.2
    else
      let r := writeChar file 10
      if r.1 = FILE_END then some (FILE_END, r.2) else some (0, r.2)

/-- Source `int writeLine(File* file, const char* line)`. -/
def writeLine (term : Byte) (file : File) (line : List Byte) : Option (Int × File) :=
  if file.mode ≠ 'w' ∧ file.mode ≠ 'a' then some (FILE_END, file)
  else writeLineLoop term line file

/-! ### Integers to text -/

/-- An `int` result brought back into 32 bits (two's complement). -/
def wrapInt32 (v : Int) : Int :=
  (v + 2147483648) % 4294967296 - 2147483648

/-- The `while` loop of `numberOfDigits` with a bound on its iterations: the
final `digits`, or `none` when the bound is used up first. -/
def numberOfDigitsFuel : Nat → Int → Nat → Option Nat
  | 0, _, _ => none
  | fuel + 1, temp, digits =>
    if temp.tdiv 10 ≠ 0 then numberOfDigitsFuel fuel (temp.tdiv 10) (digits + 1)
    else some digits

/-- Source `size_t numberOfDigits(int value)`.  The bound is never used up
(`numberOfDigitsFuel_total` below). -/
def numberOfDigits (value : Int) : Nat :=
  (numberOfDigitsFuel (value.natAbs + 1) value 0).getD 0 + 1

/-- The `for` loop of the three-argument `intToStr` with a bound on its
iterations: the final index `i` and the memory at `str`.  A store past the end
of the block is dropped. -/
def intToStrFuel : Nat → Int → Int → Nat → List Byte → Option (Nat × List Byte)
  | 0, _, _, _, _ => none
  | fuel + 1, tensPower, value, i, str =>
    if tensPower ≥ 1 then
      intToStrFuel fuel (tensPower.tdiv 10) value (i + 1)
        (str.set i (toByte (48 + (value.tdiv tensPower).tmod 10)))
    else some (i, str)

/-- Source `char* intToStr(int value, char* str, size_t digits)`: the memory at
`str` afterwards.  `lround(pow(10, digits - 1))` is the integer
`10 ^ (digits - 1)`, which is exact for the `digits` from 1 to 10 that the
digit count of an `int` takes.  The bound `digits + 2` is never used up
(`intToStrFuel_total` below). -/
def intToStr3 (term : Byte) (value : Int) (str : List Byte) (digits : Nat) : List Byte :=
  let str1 := if value < 0 then str.set 0 45 else str
  let i := if value < 0 then 1 else 0
  let value1 := if value < 0 then wrapInt32 (-value) else value
  let r := (intToStrFuel (digits + 2) ((10 : Int) ^ (digits - 1)) value1 i str1).getD (i, str1)
  r.2.set r.1 term

/-- Source `char* intToStr(int value, char* str)`. -/
def intToStr (term : Byte) (value : Int) (str : List Byte) : List Byte :=
  intToStr3 term value str (numberOfDigits value)

/-! ### The formatter -/

/-- One variadic argument of `writeFormatted`. -/
inductive Arg where
  | char (c : Byte)
  | int (v : Int)
  | str (s : List Byte)
deriving DecidableEq

/-- The scan loop of `writeFormatted`, from the byte `currentChar` points at;
`n` is `successfullyInterpreted`.  The bytes 37, 99, 100 and 115 are `%`, `c`,
`d` and `s`.  An argument that is missing or of another kind than the
specifier asks for has no defined result.  The case `'c'` reads its argument
with `va_arg(valist, char)`; an argument that went through `...` has been
promoted to `int`, so a read at the type `char` has no defined result whatever
the argument is (the compiled program stops at that read), and nothing is
written for that case. -/
def writeFormattedLoop (term : Byte) :
    List Byte → List Arg → File → Int → Option (Int × File)
  | [], _, _, _ => none
  | c :: rest, args, file, n =>
    if c ≠ term then
      if c = 37 then
        match rest with
        | [] => none
        | x :: rest1 =>
          if x = 99 then none
          else if x = 100 then
            match args with
            | Arg.int intValue :: args1 =>
              let digits0 := numberOfDigits intValue
              let digits := if intValue < 0 then digits0 + 1 else digits0
              let convertedToStr := intToStr3 term intValue (List.replicate (digits + 1) 0)
                (if intValue < 0 then digits - 1 else digits)
              match writeString term file convertedToStr with
              | none => none
              | some r =>
                if r.1 = FILE_END then some (-1, r.2)
                else writeFormattedLoop term rest1 args1 r.2 (n + 1)
            | _ => none
          else if x = 115 then
            match args with
            | Arg.str s :: args1 =>
              match writeString term file s with
              | none => none
              | some r =>
                if r.1 = FILE_END then some (-1, r.2)
                else writeFormattedLoop term rest1 args1 r.2 (n + 1)
            | _ => none
          else
            let r1 := writeChar file 37
            if r1.1 = FILE_END then some (-1, r1.2)
            else
              let r2 := writeChar r1.2 x
              if r2.1 = FILE_END then some (-1, r2.2)
              else writeFormattedLoop term rest1 args r2.2 n
      else
        let r := writeChar file c
        if r.1 = FILE_END then some (-1, r.2)
        else writeFormattedLoop term rest args r.2 n
    else some (n, file)

/-- Source `int writeFormatted(File* file, const char* str, va_list valist)`. -/
def writeFormatted (term : Byte) (file : File) (str : List Byte) (args : List Arg) :
    Option (Int × File) :=
  if file.mode ≠ 'w' ∧ file.mode ≠ 'a' then some (-1, file)
  else writeFormattedLoop term str args file 0

/-! ### Strings -/

/-- The `for` loop of `strLength`, from the byte `currentSymbol` points at. -/
def strLengthLoop (term : Byte) : List Byte → Nat → Option Nat
  | [], _ => none
  | c :: cs, length => if c ≠ term then strLengthLoop term cs (length + 1) else some length

/-- Source `size_t strLength(const char* str)`. -/
def strLength (term : Byte) (str : List Byte) : Option Nat :=
  strLengthLoop term str 0

/-- The `while` loop of `strConcatenate`: the offset in `destination` of the
first termination byte from `ptrDestination` on. -/
def strConcatenateSeek (term : Byte) : List Byte → Nat → Option Nat
  | [], _ => none
  | c :: cs, k => if c ≠ term then strConcatenateSeek term cs (k + 1) else some k

/-- The `for` loop of `strConcatenate`: `k` is the offset of `ptrDestination`
in the memory `dest`.  A store past the end of the block is dropped. -/
def strConcatenateCopy (term : Byte) : List Byte → List Byte → Nat → Option (Nat × List Byte)
  | [], _, _ => none
  | c :: cs, dest, k =>
    if c ≠ term then strConcatenateCopy term cs (dest.set k c) (k + 1) else some (k, dest)

/-- Source `char* strConcatenate(char* destination, const char* source)` on two
blocks that do not overlap: the offset in `destination` of the pointer that is
returned, and the memory at `destination` afterwards. -/
def strConcatenate (term : Byte) (destination source : List Byte) : Option (Nat × List Byte) :=
  match strConcatenateSeek term destination 0 with
  | none => none
  | some k =>
    match strConcatenateCopy term source destination k with
    | none => none
    | some r => some (r.1, r.2.set r.1 term)

/-- A `char*` result that is `NULL` or points into (or next to) the block of the
first argument, at the given offset. -/
inductive CPtr where
  | null
  | offset (k : Int)
deriving DecidableEq

/-- The `for` loop of the two-argument `strFind` and the code after it, from
the byte `str[currentIndex]` on. -/
def strFindLoop (term : Byte) (substr : List Byte) (substrLength : Nat) :
    List Byte → Nat → Int → Nat → Option CPtr
  | [], _, _, _ => none
  | c :: cs, currentIndex, start, currentlyMatched =>
    if c ≠ term then
      if currentlyMatched = substrLength then
        some (if start = -1 then CPtr.null else CPtr.offset start)
      else
        match substr[currentlyMatched]? with
        | none => none
        | some sc =>
          if sc = term then some CPtr.null
          else if c = sc then
            strFindLoop term substr substrLength cs (currentIndex + 1)
              (if start = -1 then (currentIndex : Int) else start) (currentlyMatched + 1)
          else strFindLoop term substr substrLength cs (currentIndex + 1) (-1) 0
    else some (if start = -1 then CPtr.null else CPtr.offset start)

/-- Source `char* strFind(const char* str, const char* substr)`. -/
def strFind (term : Byte) (str substr : List Byte) : Option CPtr :=
  match strLength term substr with
  | none => none
  | some substrLength => strFindLoop term substr substrLength str 0 (-1) 0

/-- The `for` loop of the three-argument `strFind` and the code after it, from
the byte `str[currentIndex]` on. -/
def strFind3Loop (term : Byte) (substr : List Byte) (substrLength maxSymbolsToCheck : Nat) :
    List Byte → Nat → Int → Nat → Option CPtr
  | [], _, _, _ => none
  | c :: cs, currentIndex, start, currentlyMatched =>
    if c ≠ term ∧ currentIndex < maxSymbolsToCheck then
      if currentlyMatched = substrLength then
        some (if currentlyMatched ≠ substrLength then CPtr.null else CPtr.offset start)
      else
        match substr[currentlyMatched]? with
        | none => none
        | some sc =>
          if sc = term then some CPtr.null
          else if c = sc then
            strFind3Loop term substr substrLength maxSymbolsToCheck cs (currentIndex + 1)
              (if start = -1 then (currentIndex : Int) else start) (currentlyMatched + 1)
          else strFind3Loop term substr substrLength maxSymbolsToCheck cs (currentIndex + 1) (-1) 0
    else some (if currentlyMatched ≠ substrLength then CPtr.null else CPtr.offset start)

/-- Source `char* strFind(const char* str, const char* substr, size_t
maxSymbolsToCheck)`. -/
def strFind3 (term : Byte) (str substr : List Byte) (maxSymbolsToCheck : Nat) : Option CPtr :=
  match strLength term substr with
  | none => none
  | some substrLength => strFind3Loop term substr substrLength maxSymbolsToCheck str 0 (-1) 0

/-- The `for` loop of the three-argument `strNumOfOccurrences`, from the byte
`str` points at: the final `numOfOccurrences`, and the number of bytes of the
string that have been read.  The loop test reads `*str`, the byte at index
`symbolsChecked`, before it compares `symbolsChecked` with
`maxSymbolsToCheck`. -/
def strNumOfOccurrences3Loop (term symbol : Byte) (maxSymbolsToCheck : Nat) :
    List Byte → Nat → Nat → Option (Nat × Nat)
  | [], _, _ => none
  | c :: cs, numOfOccurrences, symbolsChecked =>
    if c ≠ term ∧ symbolsChecked < maxSymbolsToCheck then
      strNumOfOccurrences3Loop term symbol maxSymbolsToCheck cs
        (if c = symbol then numOfOccurrences + 1 else numOfOccurrences) (symbolsChecked + 1)
    else some (numOfOccurrences, symbolsChecked + 1)

/-- Source `size_t strNumOfOccurrences(const char* str, char symbol, size_t
maxSymbolsToCheck)`: the value returned, and the number of bytes of `str` that
were read (the bytes at the indices below that number). -/
def strNumOfOccurrences3 (term : Byte) (str : List Byte) (symbol : Byte)
    (maxSymbolsToCheck : Nat) : Option (Nat × Nat) :=
  strNumOfOccurrences3Loop term symbol maxSymbolsToCheck str 0 0

/-- Source `int strCompare(const unsigned char* str1, const unsigned char*
str2)`, from the bytes `ptr1` and `ptr2` point at.  The comparison of the
`unsigned char` `*ptr1` with the `char` `STRING_TERMINATION` is that of the two
bytes when the termination byte is below 128. -/
def strCompare (term : Byte) : List Byte → List Byte → Option Int
  | [], _ => none
  | _ :: _, [] => none
  | a :: as, b :: bs =>
    if a = b then
      if a = term then some 0 else strCompare term as bs
    else some ((a.val : Int) - (b.val : Int))

/-! ## Vocabulary of the statements -/

/-- Bytes of the resource that the stream has not delivered yet. -/
def remaining (c : CFILE) : List Byte :=
  c.content.drop c.offset

/-- The unread input of a read handle: the valid bytes of the buffer from the
cursor on, followed by what the stream still holds. -/
def pending (f : File) : List Byte :=
  (f.buffer.take f.correctBufferValues).drop f.position ++ remaining f.cfile

/-- Well-formed handle states (shown below to contain every reachable state). -/
def Inv (f : File) : Prop :=
  f.buffer.length = BUFFER_SIZE ∧ f.correctBufferValues ≤ BUFFER_SIZE ∧
  (f.position = BUFFER_SIZE ∨
    (f.position ≤ f.correctBufferValues ∧
      (f.correctBufferValues < BUFFER_SIZE → remaining f.cfile = []))) ∧
  (f.fileEndReached ≠ 0 → f.position ≠ BUFFER_SIZE ∧ f.correctBufferValues ≤ f.position)

/-- Handle states reachable from a successful `openFile` through the reading
and block-transfer operations of the library. -/
inductive Reachable : File → Prop
  | opened (resource : Option (List Byte)) (mode : Char) (f : File) :
      openFile resource mode = some f → Reachable f
  | updateBuffer (f : File) : Reachable f → Reachable (updateBuffer f).2
  | nextChar (f : File) : Reachable f → Reachable (nextChar f).2
  | nextLine (term : Byte) (f : File) (line : List Byte) (maxLength : Nat) :
      Reachable f → Reachable (nextLine term f line maxLength).file
  | readBuffer (f : File) (typeSize count : Nat) (buffer : List Byte) :
      Reachable f → Reachable (readBufferFromFile f typeSize count buffer).2.1
  | writeBuffer (f : File) (typeSize count : Nat) (buffer : List Byte) :
      Reachable f → Reachable (writeBufferToFile f typeSize count buffer).2

/-- The successive stores `line[i] = b0`, `line[i + 1] = b1`, ... -/
def writeAt : List Byte → Nat → List Byte → List Byte
  | line, _, [] => line
  | line, i, b :: bs => writeAt (line.set i b) (i + 1) bs

/-- The content `l1 '\n' l2 '\n' ... lk` made of the lines `l1 .. lk`. -/
def joinLines : List (List Byte) → List Byte
  | [] => []
  | [l] => l
  | l :: l2 :: ls => l ++ 10 :: joinLines (l2 :: ls)

/-- The outcome of call number `k + 1` in a run of successive `nextLine` calls
on one handle, all with the same caller buffer and `maxLength`. -/
def nextLineCalls (term : Byte) (maxLength : Nat) : Nat → File → List Byte → LineResult
  | 0, f, line => nextLine term f line maxLength
  | k + 1, f, line =>
    nextLineCalls term maxLength k (nextLine term f line maxLength).file
      (nextLine term f line maxLength).line

/-- The handle that `openFile` builds around a stream. -/
def freshFile (c : CFILE) (mode : Char) : File :=
  { buffer := List.replicate BUFFER_SIZE 0
    cfile := c
    position := BUFFER_SIZE
    correctBufferValues := 0
    fileEndReached := 0
    mode := mode }

/-- The handle that `openFile` returns in Read mode on a resource holding `s`. -/
def readHandle (s : List Byte) : File :=
  freshFile { content := s, offset := 0, freads := 0 } 'r'

/-- What one `nextChar` call does to a well-formed read handle, in terms of its
unread input: at the end it latches and signals `FILE_END`, otherwise it hands
out the first unread byte. -/
def StepOK (f : File) (r : Int × File) : Prop :=
  Inv r.2 ∧ r.2.mode = 'r' ∧
  ((pending f = [] ∧ r.1 = FILE_END ∧ pending r.2 = [] ∧ r.2.fileEndReached = 1) ∨
   (∃ b bs, pending f = b :: bs ∧ r.1 = (b.val : Int) ∧ pending r.2 = bs ∧
      r.2.fileEndReached = 0 ∧ f.fileEndReached = 0))

/-- The invariant of reachable handles: the buffer invariant, the cursor of a
handle that is not in Read mode never moves, and the latch is `0` or `1`. -/
def ReachInv (f : File) : Prop :=
  Inv f ∧ (f.mode ≠ 'r' → f.position = BUFFER_SIZE) ∧
    (f.fileEndReached = 0 ∨ f.fileEndReached = 1)

/-- The handle `file` after the bytes `bs` have reached its sink, by one `putc`
call each. -/
def appendBytes (file : File) (bs : List Byte) : File :=
  { file with
      cfile := { file.cfile with
                   content := file.cfile.content ++ bs
                   putcs := file.cfile.putcs + bs.length } }

/-- The handle that `openFile` returns in Write mode: an empty resource behind
a sink that never fails. -/
def writeHandle : File :=
  freshFile { content := [], offset := 0, freads := 0 } 'w'

/-- The bytes of the string held in the memory block `s`: those before its
first termination byte. -/
def cstr (term : Byte) (s : List Byte) : List Byte :=
  s.takeWhile (fun b => b ≠ term)

/-- The `k` bytes `'0' + (value / 10^j) % 10` for `j = k - 1` down to 0. -/
def intDigitBytes (value : Int) : Nat → List Byte
  | 0 => []
  | k + 1 => toByte (48 + (value.tdiv ((10 : Int) ^ k)).tmod 10) :: intDigitBytes value k

/-- The bytes that `intToStr` stores before the termination byte: a `-` for a
negative value, then the digit bytes of the (negated) value. -/
def intText (value : Int) : List Byte :=
  (if value < 0 then [45] else []) ++
    intDigitBytes (if value < 0 then wrapInt32 (-value) else value) (numberOfDigits value)

/-- The `intToStr` rendering of `value`: the string that `intToStr` leaves in a
zero-filled block with room for the sign, the digits and the termination. -/
def intToStrText (term : Byte) (value : Int) : List Byte :=
  cstr term (intToStr term value (List.replicate (numberOfDigits value + 2) 0))

/-- Modelled on the words of the formatter's contract: the text a format stands
for, that is the bytes of the format (given without its termination byte) with
each `%c` replaced by the argument byte, each `%d` by the `intToStr` rendering
of the argument, each `%s` by the bytes of the argument string up to its
termination, and any other pair `%x` kept as it is; next to it the number of
`%c`, `%d` and `%s`.  It is `none` when an argument is missing or of another
kind than its specifier, when a string argument has no termination byte, and
when the format ends in a `%` that no byte follows. -/
def renderFormat (term : Byte) : List Byte → List Arg → Option (List Byte × Int)
  | [], _ => some ([], 0)
  | c :: rest, args =>
    if c = 37 then
      match rest with
      | [] => none
      | x :: rest1 =>
        if x = 99 then
          match args with
          | Arg.char a :: args1 =>
            (renderFormat term rest1 args1).map (fun r => (a :: r.1, r.2 + 1))
          | _ => none
        else if x = 100 then
          match args with
          | Arg.int v :: args1 =>
            (renderFormat term rest1 args1).map (fun r => (intToStrText term v ++ r.1, r.2 + 1))
          | _ => none
        else if x = 115 then
          match args with
          | Arg.str s :: args1 =>
            if term ∈ s then
              (renderFormat term rest1 args1).map (fun r => (cstr term s ++ r.1, r.2 + 1))
            else none
          | _ => none
        else (renderFormat term rest1 args).map (fun r => (37 :: x :: r.1, r.2))
    else (renderFormat term rest args).map (fun r => (c :: r.1, r.2))

/-- Whether the scan of a format (given without its termination byte) meets a
`%c`: the format is read from left to right and a `%` forms a pair with the
byte after it, as in `renderFormat`. -/
def hasCharSpecifier : List Byte → Bool
  | [] => false
  | c :: rest =>
    if c = 37 then
      match rest with
      | [] => false
      | x :: rest1 => if x = 99 then true else hasCharSpecifier rest1
    else hasCharSpecifier rest

/-- The number that a list of decimal digit bytes, most significant first,
stands for. -/
def decimalValue (ds : List Byte) : Nat :=
  ds.foldl (fun acc b => 10 * acc + (b.val - 48)) 0

/-- Lexicographic order of byte strings, a proper prefix being smaller. -/
def lexLess : List Byte → List Byte → Bool
  | [], [] => false
  | [], _ :: _ => true
  | _ :: _, [] => false
  | a :: as, b :: bs => decide (a < b) || (decide (a = b) && lexLess as bs)

/-- The run of `writeChar` calls for the bytes `bs`, one after the other, that
stops at the first call that fails: whether every call succeeded, and the
handle afterwards. -/
def pushBytes : File → List Byte → Bool × File
  | file, [] => (true, file)
  | file, b :: bs =>
    if (writeChar file b).1 = FILE_END then (false, (writeChar file b).2)
    else pushBytes (writeChar file b).2 bs

/-- The handle `file` with its sink replaced by one that never fails. -/
def neverFailing (file : File) : File :=
  { file with cfile := { file.cfile with putcLeft := none } }

/-- The handle `file` with its sink replaced by one that takes `j` more `putc`
calls. -/
def withBudget (file : File) (j : Nat) : File :=
  { file with cfile := { file.cfile with putcLeft := some j } }

/-- The handle `file` once its sink has taken the first `j` bytes of `out`, by
`j` calls of `putc`, and has failed on one more call, the last one made. -/
def failedAfter (file : File) (j : Nat) (out : List Byte) : File :=
  { file with
      cfile := { file.cfile with
                   content := file.cfile.content ++ out.take j
                   putcLeft := some 0
                   putcs := file.cfile.putcs + j + 1 } }

/-! ## The refill -/

theorem fread_one_bytes (n : Nat) (c : CFILE) :
    (fread 1 n c).1 = (remaining c).take n := by
  simp [fread, remaining]

theorem fread_one_count (n : Nat) (c : CFILE) :
    (fread 1 n c).2.1 = min n (remaining c).length := by
  simp [fread, remaining]

theorem fread_one_remaining (n : Nat) (c : CFILE) :
    remaining (fread 1 n c).2.2 = (remaining c).drop n := by
  simp only [fread, remaining, one_mul, List.length_take, List.length_drop, List.drop_drop]
  rcases Nat.le_total n (c.content.length - c.offset) with h | h
  · rw [Nat.min_eq_left h, Nat.add_comm]
  · rw [Nat.min_eq_right h]
    rw [List.drop_eq_nil_of_le (by omega), List.drop_eq_nil_of_le (by omega)]

theorem updateBuffer_denied (f : File) (h : f.mode ≠ 'r' ∨ f.position < BUFFER_SIZE) :
    updateBuffer f = (UPDATE_BUFFER_DENIED, f) := by
  unfold updateBuffer
  rcases h with h | h
  · rw [if_pos h]
  · by_cases hm : f.mode ≠ 'r'
    · rw [if_pos hm]
    · rw [if_neg hm, if_pos h]

theorem updateBuffer_refill (f : File) (hm : f.mode = 'r') (hp : ¬ f.position < BUFFER_SIZE) :
    updateBuffer f =
      (0, { f with
              buffer := store f.buffer (fread 1 BUFFER_SIZE f.cfile).1
              cfile := (fread 1 BUFFER_SIZE f.cfile).2.2
              correctBufferValues := (fread 1 BUFFER_SIZE f.cfile).2.1
              position := 0 }) := by
  unfold updateBuffer
  rw [if_neg (by simpa using hm), if_neg hp]

/-! ## `nextChar`: one step -/

theorem nextCharFuel_flat (n : Nat) (f : File)
    (h : f.mode ≠ 'r' ∨ f.position < f.correctBufferValues ∨ f.position ≠ BUFFER_SIZE) :
    nextCharFuel (n + 1) f =
      if f.mode ≠ 'r' then some (FILE_END, f)
      else if f.position < f.correctBufferValues then
        some (((f.buffer.getD f.position 0).val : Int), { f with position := f.position + 1 })
      else some (FILE_END, { f with fileEndReached := 1 }) := by
  unfold nextCharFuel
  by_cases h1 : f.mode ≠ 'r'
  · rw [if_pos h1, if_pos h1]
  · rw [if_neg h1, if_neg h1]
    by_cases h2 : f.position < f.correctBufferValues
    · rw [if_pos h2, if_pos h2]
    · rw [if_neg h2, if_neg h2]
      have h3 : f.position ≠ BUFFER_SIZE := by
        rcases h with h | h | h
        · exact absurd h h1
        · exact absurd h h2
        · exact h
      rw [if_neg h3]

theorem updateBuffer_position (f : File) (hm : f.mode = 'r') (hp : f.position = BUFFER_SIZE) :
    (updateBuffer f).2.position = 0 ∧ (updateBuffer f).2.mode = 'r' := by
  rw [updateBuffer_refill f hm (by omega)]
  exact ⟨rfl, hm⟩

theorem nextCharFuel_refill (n : Nat) (f : File) (hm : f.mode = 'r')
    (h1 : ¬ f.position < f.correctBufferValues) (h2 : f.position = BUFFER_SIZE) :
    nextCharFuel (n + 2) f = nextCharFuel 1 (updateBuffer f).2 := by
  have hg := updateBuffer_position f hm h2
  have h0 : (updateBuffer f).2.position ≠ BUFFER_SIZE := by
    rw [hg.1]; decide
  conv_lhs => unfold nextCharFuel
  rw [if_neg (by simpa using hm), if_neg h1, if_pos h2]
  rw [nextCharFuel_flat n _ (Or.inr (Or.inr h0)), nextCharFuel_flat 0 _ (Or.inr (Or.inr h0))]

/-- The bounded version returns for every bound of at least two, and with the
value of `nextChar`: the function is total. -/
theorem nextCharFuel_total (n : Nat) (f : File) :
    nextCharFuel (n + 2) f = some (nextChar f) := by
  unfold nextChar
  by_cases h : f.mode ≠ 'r' ∨ f.position < f.correctBufferValues ∨ f.position ≠ BUFFER_SIZE
  · rw [nextCharFuel_flat (n + 1) f h, nextCharFuel_flat 1 f h]
    split_ifs <;> rfl
  · simp only [not_or, not_not] at h
    rw [nextCharFuel_refill n f h.1 h.2.1 h.2.2, nextCharFuel_refill 0 f h.1 h.2.1 h.2.2]
    have hg := updateBuffer_position f h.1 h.2.2
    have h0 : (updateBuffer f).2.position ≠ BUFFER_SIZE := by
      rw [hg.1]; decide
    rw [nextCharFuel_flat 0 _ (Or.inr (Or.inr h0))]
    split_ifs <;> rfl

theorem nextChar_wrong_mode (f : File) (hm : f.mode ≠ 'r') : nextChar f = (FILE_END, f) := by
  unfold nextChar
  rw [nextCharFuel_flat 1 f (Or.inl hm), if_pos hm]
  rfl

theorem nextChar_buffered (f : File) (hm : f.mode = 'r')
    (h : f.position < f.correctBufferValues) :
    nextChar f = (((f.buffer.getD f.position 0).val : Int),
      { f with position := f.position + 1 }) := by
  unfold nextChar
  rw [nextCharFuel_flat 1 f (Or.inr (Or.inl h)), if_neg (by simpa using hm), if_pos h]
  rfl

theorem nextChar_latch (f : File) (hm : f.mode = 'r')
    (h1 : ¬ f.position < f.correctBufferValues) (h2 : f.position ≠ BUFFER_SIZE) :
    nextChar f = (FILE_END, { f with fileEndReached := 1 }) := by
  unfold nextChar
  rw [nextCharFuel_flat 1 f (Or.inr (Or.inr h2)), if_neg (by simpa using hm), if_neg h1]
  rfl

theorem nextChar_refill (f : File) (hm : f.mode = 'r')
    (h1 : ¬ f.position < f.correctBufferValues) (h2 : f.position = BUFFER_SIZE) :
    nextChar f = nextChar (updateBuffer f).2 := by
  have hg := updateBuffer_position f hm h2
  have h0 : (updateBuffer f).2.position ≠ BUFFER_SIZE := by
    rw [hg.1]; decide
  unfold nextChar
  rw [nextCharFuel_refill 0 f hm h1 h2, nextCharFuel_flat 0 _ (Or.inr (Or.inr h0)),
    nextCharFuel_flat 1 _ (Or.inr (Or.inr h0))]
  split_ifs <;> rfl

/-! ## `nextChar` against the unread input -/

theorem pending_buffered (f : File) (hI : Inv f) (h : f.position < f.correctBufferValues) :
    pending f = f.buffer.getD f.position 0 ::
      pending { f with position := f.position + 1 } := by
  obtain ⟨hlen, hcbv, -, -⟩ := hI
  have hl : f.position < (f.buffer.take f.correctBufferValues).length := by
    rw [List.length_take]; omega
  have hb : f.position < f.buffer.length := by omega
  unfold pending
  rw [List.drop_eq_getElem_cons hl, List.getElem_take, List.getD_eq_getElem _ _ hb]
  rfl

theorem nextChar_step_flat (f : File) (hm : f.mode = 'r') (hI : Inv f)
    (hflat : f.position < f.correctBufferValues ∨ f.position ≠ BUFFER_SIZE) :
    StepOK f (nextChar f) := by
  by_cases h : f.position < f.correctBufferValues
  · rw [nextChar_buffered f hm h]
    have hpend := pending_buffered f hI h
    obtain ⟨hlen, hcbv, hpos, hlatch⟩ := hI
    have hz : f.fileEndReached = 0 := by
      by_contra hne
      have := (hlatch hne).2
      omega
    refine ⟨⟨hlen, hcbv, Or.inr ⟨?_, ?_⟩, ?_⟩, hm, Or.inr ⟨_, _, hpend, rfl, rfl, hz, hz⟩⟩
    · show f.position + 1 ≤ f.correctBufferValues
      omega
    · rcases hpos with hp | hp
      · omega
      · exact hp.2
    · intro hne
      exact absurd hz hne
  · have h2 : f.position ≠ BUFFER_SIZE := by
      rcases hflat with h' | h'
      · exact absurd h' h
      · exact h'
    rw [nextChar_latch f hm h h2]
    obtain ⟨hlen, hcbv, hpos, hlatch⟩ := hI
    have hp : f.position ≤ f.correctBufferValues ∧
        (f.correctBufferValues < BUFFER_SIZE → remaining f.cfile = []) := by
      rcases hpos with hp | hp
      · exact absurd hp h2
      · exact hp
    have hrem : remaining f.cfile = [] := hp.2 (by omega)
    have hpe : pending f = [] := by
      unfold pending
      rw [hrem, List.append_nil, List.drop_eq_nil_iff, List.length_take]
      omega
    refine ⟨⟨hlen, hcbv, Or.inr hp, ?_⟩, hm, Or.inl ⟨hpe, rfl, hpe, rfl⟩⟩
    intro _
    exact ⟨h2, by show f.correctBufferValues ≤ f.position; omega⟩

theorem updateBuffer_pending (f : File) (hm : f.mode = 'r') (hI : Inv f)
    (hp : f.position = BUFFER_SIZE) :
    pending (updateBuffer f).2 = pending f ∧ Inv (updateBuffer f).2 ∧
      (updateBuffer f).2.fileEndReached = 0 ∧ f.fileEndReached = 0 := by
  obtain ⟨hlen, hcbv, -, hlatch⟩ := hI
  have hz : f.fileEndReached = 0 := by
    by_contra hne
    exact (hlatch hne).1 hp
  rw [updateBuffer_refill f hm (by omega)]
  have hcount := fread_one_count BUFFER_SIZE f.cfile
  have hbytes := fread_one_bytes BUFFER_SIZE f.cfile
  have hrem := fread_one_remaining BUFFER_SIZE f.cfile
  have hold : pending f = remaining f.cfile := by
    unfold pending
    rw [List.drop_eq_nil_of_le (by rw [List.length_take]; omega), List.nil_append]
  refine ⟨?_, ⟨?_, ?_, Or.inr ⟨Nat.zero_le _, ?_⟩, ?_⟩, hz, hz⟩
  · rw [hold]
    unfold pending
    simp only [hcount, hbytes, hrem, store, List.drop_zero]
    rw [List.take_left' (by rw [List.length_take]), List.take_append_drop]
  · simp only [hbytes, store, List.length_append, List.length_take, List.length_drop]
    omega
  · simp only [hcount]
    omega
  · simp only [hcount, hrem]
    intro hlt
    rw [List.drop_eq_nil_iff]
    omega
  · intro hne
    exact absurd hz hne

/-- One call of `nextChar` on a well-formed read handle. -/
theorem nextChar_step (f : File) (hm : f.mode = 'r') (hI : Inv f) : StepOK f (nextChar f) := by
  by_cases hflat : f.position < f.correctBufferValues ∨ f.position ≠ BUFFER_SIZE
  · exact nextChar_step_flat f hm hI hflat
  · simp only [not_or, not_not] at hflat
    rw [nextChar_refill f hm hflat.1 hflat.2]
    have hu := updateBuffer_pending f hm hI hflat.2
    have hg := updateBuffer_position f hm hflat.2
    have h0 : (updateBuffer f).2.position ≠ BUFFER_SIZE := by
      rw [hg.1]; decide
    have hs := nextChar_step_flat _ hg.2 hu.2.1 (Or.inr h0)
    unfold StepOK at hs ⊢
    rw [hu.1] at hs
    refine ⟨hs.1, hs.2.1, ?_⟩
    rcases hs.2.2 with h | ⟨b, bs, h1, h2, h3, h4, -⟩
    · exact Or.inl h
    · exact Or.inr ⟨b, bs, h1, h2, h3, h4, hu.2.2.2⟩

theorem nextChar_cons (f : File) (hm : f.mode = 'r') (hI : Inv f) (b : Byte) (bs : List Byte)
    (hp : pending f = b :: bs) :
    (nextChar f).1 = (b.val : Int) ∧ pending (nextChar f).2 = bs ∧ Inv (nextChar f).2 ∧
      (nextChar f).2.mode = 'r' ∧ (nextChar f).2.fileEndReached = 0 := by
  obtain ⟨h1, h2, h3⟩ := nextChar_step f hm hI
  rcases h3 with h | ⟨b', bs', e, h4, h5, h6, -⟩
  · rw [hp] at h
    exact absurd h.1 (by simp)
  · rw [hp] at e
    obtain ⟨rfl, rfl⟩ := List.cons.inj e
    exact ⟨h4, h5, h1, h2, h6⟩

theorem nextChar_nil (f : File) (hm : f.mode = 'r') (hI : Inv f) (hp : pending f = []) :
    (nextChar f).1 = FILE_END ∧ pending (nextChar f).2 = [] ∧ Inv (nextChar f).2 ∧
      (nextChar f).2.mode = 'r' ∧ (nextChar f).2.fileEndReached = 1 := by
  obtain ⟨h1, h2, h3⟩ := nextChar_step f hm hI
  rcases h3 with h | ⟨b', bs', e, -⟩
  · exact ⟨h.2.1, h.2.2.1, h1, h2, h.2.2.2⟩
  · rw [hp] at e
    exact absurd e (by simp)

/-! ## Fresh handles -/

theorem openFile_read (s : List Byte) : openFile (some s) 'r' = some (readHandle s) := by
  rfl

theorem openFile_eq_fresh (resource : Option (List Byte)) (mode : Char) (f : File)
    (h : openFile resource mode = some f) : ∃ c, f = freshFile c mode := by
  unfold openFile at h
  split_ifs at h
  cases hc : fopen resource mode with
  | none => rw [hc] at h; exact absurd h (by simp)
  | some c =>
    rw [hc] at h
    exact ⟨c, (Option.some.inj h).symm⟩

theorem freshFile_inv (c : CFILE) (mode : Char) : Inv (freshFile c mode) := by
  refine ⟨?_, ?_, Or.inl rfl, ?_⟩
  · simp [freshFile]
  · simp [freshFile]
  · intro h
    exact absurd rfl h

theorem readHandle_pending (s : List Byte) : pending (readHandle s) = s := by
  simp [pending, readHandle, freshFile, remaining]

/-! ## Sequences of `nextChar` calls -/

theorem nextChars_at_end (n : Nat) (f : File) (hm : f.mode = 'r') (hI : Inv f)
    (hp : pending f = []) : (nextChars n f).1 = List.replicate n FILE_END := by
  induction n generalizing f with
  | zero => rfl
  | succ n ih =>
    obtain ⟨h1, h2, h3, h4, -⟩ := nextChar_nil f hm hI hp
    show (nextChar f).1 :: (nextChars n (nextChar f).2).1 = _
    rw [h1, ih _ h4 h3 h2]
    rfl

theorem nextChars_pending (n : Nat) (s : List Byte) (f : File) (hm : f.mode = 'r')
    (hI : Inv f) (hp : pending f = s) :
    (nextChars (s.length + n) f).1 =
      s.map (fun b => (b.val : Int)) ++ List.replicate n FILE_END := by
  induction s generalizing f with
  | nil =>
    simpa using nextChars_at_end n f hm hI hp
  | cons b bs ih =>
    obtain ⟨h1, h2, h3, h4, -⟩ := nextChar_cons f hm hI b bs hp
    have hlen : (b :: bs).length + n = (bs.length + n) + 1 := by
      simp only [List.length_cons]; omega
    rw [hlen]
    show (nextChar f).1 :: (nextChars (bs.length + n) (nextChar f).2).1 = _
    rw [h1, ih _ h4 h3 h2]
    rfl

/-- C1: on a handle freshly opened in Read mode over a resource holding the
bytes `s` (of any length), the first `s.length` calls of `nextChar` return the
bytes of `s` in order, each as a value in `0..255` and so different from
`FILE_END`, and every later call returns `FILE_END`. -/
theorem nextChar_reproduces_resource (s : List Byte) :
    ∃ f, openFile (some s) 'r' = some f ∧
      (∀ n, (nextChars (s.length + n) f).1 =
        s.map (fun b => (b.val : Int)) ++ List.replicate n FILE_END) ∧
      (∀ x ∈ s.map (fun b => (b.val : Int)), 0 ≤ x ∧ x ≤ 255 ∧ x ≠ FILE_END) := by
  refine ⟨_, openFile_read s, ?_, ?_⟩
  · intro n
    exact nextChars_pending n s _ rfl (freshFile_inv _ _) (readHandle_pending s)
  · intro x hx
    obtain ⟨b, -, rfl⟩ := List.mem_map.mp hx
    have hb := b.isLt
    refine ⟨by omega, by omega, ?_⟩
    unfold FILE_END
    omega

/-! ## Reachable states are well formed -/

theorem nextChar_reachInv (f : File) (h : ReachInv f) :
    ReachInv (nextChar f).2 ∧ (nextChar f).2.mode = f.mode := by
  by_cases hm : f.mode = 'r'
  · obtain ⟨h1, h2, h3⟩ := nextChar_step f hm h.1
    refine ⟨⟨h1, fun hne => absurd h2 hne, ?_⟩, by rw [h2, hm]⟩
    rcases h3 with h3 | ⟨_, _, _, _, _, h3, _⟩
    · exact Or.inr h3.2.2.2
    · exact Or.inl h3
  · rw [nextChar_wrong_mode f hm]
    exact ⟨h, rfl⟩

theorem updateBuffer_reachInv (f : File) (h : ReachInv f) :
    ReachInv (updateBuffer f).2 ∧ (updateBuffer f).2.mode = f.mode := by
  by_cases hd : f.mode ≠ 'r' ∨ f.position < BUFFER_SIZE
  · rw [updateBuffer_denied f hd]
    exact ⟨h, rfl⟩
  · simp only [not_or, not_not, Nat.not_lt] at hd
    obtain ⟨hm, hge⟩ := hd
    have hp : f.position = BUFFER_SIZE := by
      obtain ⟨-, hcbv, hpos, -⟩ := h.1
      rcases hpos with hp | hp
      · exact hp
      · omega
    have hu := updateBuffer_pending f hm h.1 hp
    have hg := updateBuffer_position f hm hp
    exact ⟨⟨hu.2.1, fun hne => absurd hg.2 hne, Or.inl hu.2.2.1⟩, by rw [hg.2, hm]⟩

theorem nextLineLoop_reachInv (term : Byte) (n i : Nat) (f : File) (line : List Byte)
    (h : ReachInv f) :
    ReachInv (nextLineLoop term n i f line).file ∧
      (nextLineLoop term n i f line).file.mode = f.mode := by
  induction n generalizing i f line with
  | zero => exact ⟨h, rfl⟩
  | succ n ih =>
    have hc := nextChar_reachInv f h
    unfold nextLineLoop
    by_cases hstop : (nextChar f).1 = NEWLINE ∨ (nextChar f).1 = FILE_END
    · simp only [if_pos hstop]
      exact hc
    · simp only [if_neg hstop]
      have := ih (i + 1) (nextChar f).2 (line.set i (toByte (nextChar f).1)) hc.1
      exact ⟨this.1, by rw [this.2, hc.2]⟩

theorem nextLine_reachInv (term : Byte) (f : File) (line : List Byte) (maxLength : Nat)
    (h : ReachInv f) :
    ReachInv (nextLine term f line maxLength).file ∧
      (nextLine term f line maxLength).file.mode = f.mode := by
  unfold nextLine
  split_ifs
  · exact ⟨h, rfl⟩
  · exact ⟨h, rfl⟩
  · exact nextLineLoop_reachInv term _ 0 f line h

theorem remaining_fread_nil (typeSize count : Nat) (c : CFILE) (h : remaining c = []) :
    remaining (fread typeSize count c).2.2 = [] := by
  unfold remaining at h ⊢
  rw [List.drop_eq_nil_iff] at h ⊢
  simp only [fread]
  omega

theorem readBuffer_reachInv (f : File) (typeSize count : Nat) (buffer : List Byte)
    (h : ReachInv f) :
    ReachInv (readBufferFromFile f typeSize count buffer).2.1 ∧
      (readBufferFromFile f typeSize count buffer).2.1.mode = f.mode := by
  unfold readBufferFromFile
  split_ifs with hm
  · exact ⟨h, rfl⟩
  · obtain ⟨⟨hlen, hcbv, hpos, hlatch⟩, hw, hl⟩ := h
    refine ⟨⟨⟨hlen, hcbv, ?_, hlatch⟩, hw, hl⟩, rfl⟩
    rcases hpos with hp | hp
    · exact Or.inl hp
    · exact Or.inr ⟨hp.1, fun hlt => remaining_fread_nil _ _ _ (hp.2 hlt)⟩

theorem writeBuffer_reachInv (f : File) (typeSize count : Nat) (buffer : List Byte)
    (h : ReachInv f) :
    ReachInv (writeBufferToFile f typeSize count buffer).2 ∧
      (writeBufferToFile f typeSize count buffer).2.mode = f.mode := by
  unfold writeBufferToFile
  split_ifs with hm
  · exact ⟨h, rfl⟩
  · obtain ⟨⟨hlen, hcbv, -, hlatch⟩, hw, hl⟩ := h
    have hnr : f.mode ≠ 'r' := by
      intro hr
      rw [hr] at hm
      exact hm ⟨by decide, by decide⟩
    exact ⟨⟨⟨hlen, hcbv, Or.inl (hw hnr), hlatch⟩, hw, hl⟩, rfl⟩

theorem reachable_reachInv (f : File) (h : Reachable f) : ReachInv f := by
  induction h with
  | opened resource mode f ho =>
    obtain ⟨c, rfl⟩ := openFile_eq_fresh resource mode f ho
    exact ⟨freshFile_inv c mode, fun _ => rfl, Or.inl rfl⟩
  | updateBuffer f _ ih => exact (updateBuffer_reachInv f ih).1
  | nextChar f _ ih => exact (nextChar_reachInv f ih).1
  | nextLine term f line maxLength _ ih => exact (nextLine_reachInv term f line maxLength ih).1
  | readBuffer f typeSize count buffer _ ih => exact (readBuffer_reachInv f typeSize count buffer ih).1
  | writeBuffer f typeSize count buffer _ ih =>
    exact (writeBuffer_reachInv f typeSize count buffer ih).1

/-! ## The latch, the refill guard and the bounds -/

theorem nextChars_latched (n : Nat) (f : File) (h : nextChar f = (FILE_END, f)) :
    nextChars n f = (List.replicate n FILE_END, f) := by
  induction n with
  | zero => rfl
  | succ n ih =>
    show ((nextChar f).1 :: (nextChars n (nextChar f).2).1, (nextChars n (nextChar f).2).2) = _
    rw [h]
    simp only [ih]
    rfl

/-- C2: in every reachable Read-mode handle state whose end-of-file latch is
set, `nextChar` returns `FILE_END` and `nextLine` returns `NULL`, any number of
times, and the handle (its stream and the count of `fread` calls included) and
the caller's line buffer are left exactly as they were. -/
theorem latched_reads_signal_end (f : File) (hr : Reachable f) (hm : f.mode = 'r')
    (hl : f.fileEndReached ≠ 0) :
    nextChar f = (FILE_END, f) ∧
    (∀ n, nextChars n f = (List.replicate n FILE_END, f)) ∧
    (∀ (term : Byte) (line : List Byte) (maxLength : Nat),
      nextLine term f line maxLength = { ret := false, file := f, line := line }) := by
  obtain ⟨⟨-, -, -, hlatch⟩, -, h01⟩ := reachable_reachInv f hr
  have h1 : f.fileEndReached = 1 := by
    rcases h01 with h | h
    · exact absurd h hl
    · exact h
  obtain ⟨hne, hge⟩ := hlatch hl
  have hstep : nextChar f = (FILE_END, f) := by
    rw [nextChar_latch f hm (by omega) hne, ← h1]
  refine ⟨hstep, fun n => nextChars_latched n f hstep, ?_⟩
  intro term line maxLength
  unfold nextLine
  split_ifs
  · rfl
  · rfl

theorem latched_reads_signal_end_witness :
    (nextChar (readHandle [])).2.mode = 'r' ∧
    (nextChar (readHandle [])).2.fileEndReached ≠ 0 ∧
    nextChar (nextChar (readHandle [])).2 =
      (FILE_END, (nextChar (readHandle [])).2) ∧
    nextLine 0 (nextChar (readHandle [])).2
        [7, 7] 2 =
      { ret := false
        file := (nextChar (readHandle [])).2
        line := [7, 7] } :=
  ⟨by decide, by decide,
    (latched_reads_signal_end
      (nextChar (readHandle [])).2
      (Reachable.nextChar _ (Reachable.opened (some []) 'r' _ rfl))
      (by decide) (by decide)).1,
    (latched_reads_signal_end
      (nextChar (readHandle [])).2
      (Reachable.nextChar _ (Reachable.opened (some []) 'r' _ rfl))
      (by decide) (by decide)).2.2 0 [7, 7] 2⟩

/-- C3: on a handle whose `position` is below `BUFFER_SIZE`, `updateBuffer`
returns `UPDATE_BUFFER_DENIED` and leaves the whole handle unchanged: buffer,
position, correctBufferValues, fileEndReached, mode, and the stream with its
count of `fread` calls. -/
theorem updateBuffer_refused_below_capacity (f : File) (h : f.position < BUFFER_SIZE) :
    updateBuffer f = (UPDATE_BUFFER_DENIED, f) :=
  updateBuffer_denied f (Or.inr h)

theorem updateBuffer_refused_below_capacity_witness :
    (nextChar (readHandle [97, 98])).2.position
        < BUFFER_SIZE ∧
    updateBuffer (nextChar (readHandle [97, 98])).2 =
      (UPDATE_BUFFER_DENIED,
        (nextChar (readHandle [97, 98])).2) :=
  ⟨by decide, updateBuffer_refused_below_capacity _ (by decide)⟩

/-- C4: on a Read-mode handle with `position = BUFFER_SIZE` whose stream has
`r` bytes left, `updateBuffer` returns 0 (also when `r = 0`), performs one
`fread`, sets `correctBufferValues` to `min r BUFFER_SIZE`, puts exactly the
next `min r BUFFER_SIZE` bytes of the stream at the start of the buffer (the
rest of the buffer keeps its old bytes), advances the stream past them and
sets `position` to 0. -/
theorem updateBuffer_refills (f : File) (hm : f.mode = 'r') (hp : f.position = BUFFER_SIZE) :
    (updateBuffer f).1 = 0 ∧
    (updateBuffer f).2.correctBufferValues = min (remaining f.cfile).length BUFFER_SIZE ∧
    (updateBuffer f).2.buffer.take (min (remaining f.cfile).length BUFFER_SIZE) =
      (remaining f.cfile).take (min (remaining f.cfile).length BUFFER_SIZE) ∧
    (updateBuffer f).2.buffer.drop (min (remaining f.cfile).length BUFFER_SIZE) =
      f.buffer.drop (min (remaining f.cfile).length BUFFER_SIZE) ∧
    (updateBuffer f).2.position = 0 ∧
    remaining (updateBuffer f).2.cfile =
      (remaining f.cfile).drop (min (remaining f.cfile).length BUFFER_SIZE) ∧
    (updateBuffer f).2.cfile.freads = f.cfile.freads + 1 ∧
    (updateBuffer f).2.fileEndReached = f.fileEndReached ∧
    (updateBuffer f).2.mode = f.mode := by
  rw [updateBuffer_refill f hm (by omega)]
  have hcount := fread_one_count BUFFER_SIZE f.cfile
  have hbytes := fread_one_bytes BUFFER_SIZE f.cfile
  have hrem := fread_one_remaining BUFFER_SIZE f.cfile
  have hmin : min (remaining f.cfile).length BUFFER_SIZE = min BUFFER_SIZE (remaining f.cfile).length :=
    Nat.min_comm _ _
  have htake : (remaining f.cfile).take (min BUFFER_SIZE (remaining f.cfile).length) =
      (remaining f.cfile).take BUFFER_SIZE := by
    rcases Nat.le_total BUFFER_SIZE (remaining f.cfile).length with h | h
    · rw [Nat.min_eq_left h]
    · rw [Nat.min_eq_right h, List.take_of_length_le (Nat.le_refl _), List.take_of_length_le h]
  have hdrop : (remaining f.cfile).drop (min BUFFER_SIZE (remaining f.cfile).length) =
      (remaining f.cfile).drop BUFFER_SIZE := by
    rcases Nat.le_total BUFFER_SIZE (remaining f.cfile).length with h | h
    · rw [Nat.min_eq_left h]
    · rw [Nat.min_eq_right h, List.drop_eq_nil_of_le (Nat.le_refl _), List.drop_eq_nil_of_le h]
  have hlen : ((remaining f.cfile).take BUFFER_SIZE).length =
      min BUFFER_SIZE (remaining f.cfile).length := List.length_take _ _
  refine ⟨rfl, ?_, ?_, ?_, rfl, ?_, rfl, rfl, rfl⟩
  · simp only [hcount, hmin]
  · simp only [hbytes, store, hmin, htake]
    rw [List.take_left' hlen]
  · simp only [hbytes, store, hmin]
    rw [List.drop_left' hlen, hlen]
  · simp only [hrem, hmin, hdrop]

theorem updateBuffer_refills_witness :
    (updateBuffer (readHandle [97, 98])).1 = 0 ∧
    (updateBuffer (readHandle [97, 98])).2.correctBufferValues
      = 2 ∧
    (updateBuffer (readHandle [97, 98])).2.buffer.take 2
      = [97, 98] ∧
    (updateBuffer (readHandle [97, 98])).2.position = 0 := by
  have h := updateBuffer_refills (readHandle [97, 98])
    rfl rfl
  exact ⟨h.1, h.2.1, h.2.2.1, h.2.2.2.2.1⟩

/-- C5: in every handle state reachable from a successful `openFile` by calls
of `updateBuffer`, `nextChar` and `nextLine` (and of the two block-transfer
functions), `position ≤ BUFFER_SIZE` and `correctBufferValues ≤ BUFFER_SIZE`. -/
theorem reachable_within_buffer (f : File) (hr : Reachable f) :
    f.position ≤ BUFFER_SIZE ∧ f.correctBufferValues ≤ BUFFER_SIZE := by
  obtain ⟨⟨-, hcbv, hpos, -⟩, -, -⟩ := reachable_reachInv f hr
  refine ⟨?_, hcbv⟩
  rcases hpos with hp | hp
  · omega
  · omega

theorem reachable_within_buffer_witness :
    (nextLine 0 (nextChar (readHandle [97, 10, 98])).2 [0, 0, 0] 3).file.position ≤ BUFFER_SIZE ∧
    (nextLine 0 (nextChar (readHandle [97, 10, 98])).2 [0, 0, 0] 3).file.correctBufferValues ≤ BUFFER_SIZE :=
  reachable_within_buffer _
    (Reachable.nextLine _ _ _ _
      (Reachable.nextChar _ (Reachable.opened (some [97, 10, 98]) 'r' _ rfl)))

/-! ## `nextLine` against the unread input -/

theorem toByte_val (b : Byte) : toByte (b.val : Int) = b := by
  apply Fin.ext
  have hb := b.isLt
  show ((b.val : Int) % 256).toNat = b.val
  omega

theorem byte_ne_FILE_END (b : Byte) : ((b.val : Int)) ≠ FILE_END := by
  unfold FILE_END
  omega

theorem byte_eq_NEWLINE (b : Byte) : ((b.val : Int)) = NEWLINE ↔ b = 10 := by
  unfold NEWLINE
  constructor
  · intro h
    apply Fin.ext
    show b.val = 10
    omega
  · intro h
    rw [h]
    rfl

theorem writeAt_length (bs : List Byte) (line : List Byte) (i : Nat) :
    (writeAt line i bs).length = line.length := by
  induction bs generalizing line i with
  | nil => rfl
  | cons b bs ih =>
    show (writeAt (line.set i b) (i + 1) bs).length = _
    rw [ih, List.length_set]

theorem writeAt_append (as bs : List Byte) (line : List Byte) (i : Nat) :
    writeAt line i (as ++ bs) = writeAt (writeAt line i as) (i + as.length) bs := by
  induction as generalizing line i with
  | nil => rfl
  | cons a as ih =>
    show writeAt (line.set i a) (i + 1) (as ++ bs) = writeAt (writeAt (line.set i a) (i + 1) as) _ bs
    rw [ih, List.length_cons]
    congr 1
    omega

theorem writeAt_eq (bs : List Byte) (line : List Byte) (i : Nat)
    (h : i + bs.length ≤ line.length) :
    writeAt line i bs = line.take i ++ bs ++ line.drop (i + bs.length) := by
  induction bs generalizing line i with
  | nil => simp [writeAt]
  | cons b bs ih =>
    rw [List.length_cons] at h
    show writeAt (line.set i b) (i + 1) bs = _
    rw [ih _ _ (by rw [List.length_set]; omega)]
    have hi : i < line.length := by omega
    rw [List.set_eq_take_append_cons_drop, if_pos hi]
    have hlt : (List.take i line).length = i := by rw [List.length_take]; omega
    have e1 : List.take (i + 1) (List.take i line ++ b :: List.drop (i + 1) line) =
        List.take i line ++ [b] := by
      rw [List.take_append_eq_append_take, hlt, List.take_of_length_le (by omega)]
      have : i + 1 - i = 1 := by omega
      rw [this]
      rfl
    have e2 : List.drop (i + 1 + bs.length) (List.take i line ++ b :: List.drop (i + 1) line) =
        List.drop (i + (bs.length + 1)) line := by
      rw [List.drop_append_eq_append_drop, hlt, List.drop_eq_nil_of_le (by omega), List.nil_append]
      have : i + 1 + bs.length - i = bs.length + 1 := by omega
      rw [this, List.drop_succ_cons, List.drop_drop]
      congr 1
      omega
    rw [e1, e2]
    simp

theorem nextLineLoop_succ (term : Byte) (n i : Nat) (f : File) (line : List Byte) :
    nextLineLoop term (n + 1) i f line =
      if (nextChar f).1 = NEWLINE ∨ (nextChar f).1 = FILE_END then
        { ret := true, file := (nextChar f).2, line := line.set i term }
      else nextLineLoop term n (i + 1) (nextChar f).2 (line.set i (toByte (nextChar f).1)) := by
  rfl

/-- The loop runs out of iterations: as many bytes as there are iterations are
unread and none of them is a newline. -/
theorem nextLineLoop_long (term : Byte) (pre rest : List Byte) (i : Nat) (f : File)
    (line : List Byte) (hm : f.mode = 'r') (hI : Inv f) (hz : f.fileEndReached = 0)
    (hp : pending f = pre ++ rest) (hnl : ∀ b ∈ pre, b ≠ 10) :
    ∃ g, nextLineLoop term pre.length i f line =
        { ret := false, file := g, line := writeAt line i pre } ∧
      pending g = rest ∧ Inv g ∧ g.mode = 'r' ∧ g.fileEndReached = 0 := by
  induction pre generalizing i f line with
  | nil => exact ⟨f, rfl, hp, hI, hm, hz⟩
  | cons b pre ih =>
    obtain ⟨h1, h2, h3, h4, h5⟩ := nextChar_cons f hm hI b (pre ++ rest) hp
    have hb : b ≠ 10 := hnl b (List.mem_cons_self _ _)
    have hstop : ¬ ((nextChar f).1 = NEWLINE ∨ (nextChar f).1 = FILE_END) := by
      rw [h1]
      rintro (h | h)
      · exact hb ((byte_eq_NEWLINE b).mp h)
      · exact byte_ne_FILE_END b h
    rw [List.length_cons, nextLineLoop_succ, if_neg hstop, h1, toByte_val]
    exact ih (i + 1) (nextChar f).2 (line.set i b) h4 h3 h5 h2
      (fun c hc => hnl c (List.mem_cons_of_mem _ hc))

/-- The loop meets a newline after the bytes `l`. -/
theorem nextLineLoop_found (term : Byte) (l rest : List Byte) (n i : Nat) (f : File)
    (line : List Byte) (hm : f.mode = 'r') (hI : Inv f)
    (hp : pending f = l ++ 10 :: rest) (hnl : ∀ b ∈ l, b ≠ 10) (hlen : l.length < n) :
    ∃ g, nextLineLoop term n i f line =
        { ret := true, file := g, line := writeAt line i (l ++ [term]) } ∧
      pending g = rest ∧ Inv g ∧ g.mode = 'r' ∧ g.fileEndReached = 0 := by
  induction l generalizing n i f line with
  | nil =>
    obtain ⟨n, rfl⟩ : ∃ m, n = m + 1 := ⟨n - 1, by simp at hlen; omega⟩
    obtain ⟨h1, h2, h3, h4, h5⟩ := nextChar_cons f hm hI 10 rest hp
    have hstop : (nextChar f).1 = NEWLINE ∨ (nextChar f).1 = FILE_END :=
      Or.inl (by rw [h1]; rfl)
    rw [nextLineLoop_succ, if_pos hstop]
    exact ⟨_, rfl, h2, h3, h4, h5⟩
  | cons b l ih =>
    rw [List.length_cons] at hlen
    obtain ⟨n, rfl⟩ : ∃ m, n = m + 1 := ⟨n - 1, by omega⟩
    obtain ⟨h1, h2, h3, h4, h5⟩ := nextChar_cons f hm hI b (l ++ 10 :: rest) hp
    have hb : b ≠ 10 := hnl b (List.mem_cons_self _ _)
    have hstop : ¬ ((nextChar f).1 = NEWLINE ∨ (nextChar f).1 = FILE_END) := by
      rw [h1]
      rintro (h | h)
      · exact hb ((byte_eq_NEWLINE b).mp h)
      · exact byte_ne_FILE_END b h
    rw [nextLineLoop_succ, if_neg hstop, h1, toByte_val]
    exact ih n (i + 1) (nextChar f).2 (line.set i b) h4 h3 h2
      (fun c hc => hnl c (List.mem_cons_of_mem _ hc)) (by omega)

/-- The loop meets the end of the stream after the bytes `l`. -/
theorem nextLineLoop_end (term : Byte) (l : List Byte) (n i : Nat) (f : File)
    (line : List Byte) (hm : f.mode = 'r') (hI : Inv f)
    (hp : pending f = l) (hnl : ∀ b ∈ l, b ≠ 10) (hlen : l.length < n) :
    ∃ g, nextLineLoop term n i f line =
        { ret := true, file := g, line := writeAt line i (l ++ [term]) } ∧
      pending g = [] ∧ Inv g ∧ g.mode = 'r' ∧ g.fileEndReached = 1 := by
  induction l generalizing n i f line with
  | nil =>
    obtain ⟨n, rfl⟩ : ∃ m, n = m + 1 := ⟨n - 1, by simp at hlen; omega⟩
    obtain ⟨h1, h2, h3, h4, h5⟩ := nextChar_nil f hm hI hp
    have hstop : (nextChar f).1 = NEWLINE ∨ (nextChar f).1 = FILE_END := Or.inr h1
    rw [nextLineLoop_succ, if_pos hstop]
    exact ⟨_, rfl, h2, h3, h4, h5⟩
  | cons b l ih =>
    rw [List.length_cons] at hlen
    obtain ⟨n, rfl⟩ : ∃ m, n = m + 1 := ⟨n - 1, by omega⟩
    obtain ⟨h1, h2, h3, h4, h5⟩ := nextChar_cons f hm hI b l hp
    have hb : b ≠ 10 := hnl b (List.mem_cons_self _ _)
    have hstop : ¬ ((nextChar f).1 = NEWLINE ∨ (nextChar f).1 = FILE_END) := by
      rw [h1]
      rintro (h | h)
      · exact hb ((byte_eq_NEWLINE b).mp h)
      · exact byte_ne_FILE_END b h
    rw [nextLineLoop_succ, if_neg hstop, h1, toByte_val]
    exact ih n (i + 1) (nextChar f).2 (line.set i b) h4 h3 h2
      (fun c hc => hnl c (List.mem_cons_of_mem _ hc)) (by omega)

theorem nextLine_enter (term : Byte) (f : File) (line : List Byte) (maxLength : Nat)
    (hcap : 1 ≤ maxLength) (hm : f.mode = 'r') (hz : f.fileEndReached = 0) :
    nextLine term f line maxLength = nextLineLoop term (maxLength - 1) 0 f line := by
  unfold nextLine
  rw [if_neg (by rintro (h | h); omega; exact h hm), if_neg (by simpa using hz)]

/-! ## Lines -/

theorem nextLine_latched (term : Byte) (f : File) (line : List Byte) (maxLength : Nat)
    (hl : f.fileEndReached ≠ 0) : (nextLine term f line maxLength).ret = false := by
  unfold nextLine
  split_ifs <;> rfl

theorem nextLineCalls_spec (term : Byte) (capacity : Nat) (ls : List (List Byte))
    (hne : ls ≠ []) (hshort : ∀ l ∈ ls, (∀ b ∈ l, b ≠ 10) ∧ l.length + 2 ≤ capacity)
    (f : File) (line : List Byte) (hm : f.mode = 'r') (hI : Inv f)
    (hz : f.fileEndReached = 0) (hp : pending f = joinLines ls)
    (hbuf : capacity ≤ line.length) :
    (∀ i l, ls[i]? = some l →
      (nextLineCalls term capacity i f line).ret = true ∧
      (nextLineCalls term capacity i f line).line.take (l.length + 1) = l ++ [term]) ∧
    (nextLineCalls term capacity ls.length f line).ret = false := by
  induction ls generalizing f line with
  | nil => exact absurd rfl hne
  | cons l ls ih =>
    obtain ⟨hnl, hlen⟩ := hshort l (List.mem_cons_self _ _)
    have henter := nextLine_enter term f line capacity (by omega) hm hz
    have htake : (writeAt line 0 (l ++ [term])).take (l.length + 1) = l ++ [term] := by
      rw [writeAt_eq _ _ _ (by simp only [List.length_append, List.length_singleton]; omega),
        List.take_zero, List.nil_append, List.take_left' (by simp)]
    cases ls with
    | nil =>
      obtain ⟨g, hg, -, -, -, hlatch⟩ :=
        nextLineLoop_end term l (capacity - 1) 0 f line hm hI hp hnl (by omega)
      rw [← henter] at hg
      constructor
      · intro i l' hi
        cases i with
        | zero =>
          obtain rfl : l = l' := by simpa using hi
          show (nextLine term f line capacity).ret = true ∧
            (nextLine term f line capacity).line.take (l.length + 1) = l ++ [term]
          rw [hg]
          exact ⟨rfl, htake⟩
        | succ i => simp at hi
      · show (nextLine term (nextLine term f line capacity).file
          (nextLine term f line capacity).line capacity).ret = false
        apply nextLine_latched
        rw [hg]
        show g.fileEndReached ≠ 0
        rw [hlatch]
        decide
    | cons l2 ls =>
      obtain ⟨g, hg, hpg, hIg, hmg, hzg⟩ :=
        nextLineLoop_found term l (joinLines (l2 :: ls)) (capacity - 1) 0 f line hm hI hp hnl
          (by omega)
      rw [← henter] at hg
      have hrec := ih (by simp) (fun x hx => hshort x (List.mem_cons_of_mem _ hx))
        g (writeAt line 0 (l ++ [term])) hmg hIg hzg hpg (by rw [writeAt_length]; exact hbuf)
      have hunfold : ∀ k, nextLineCalls term capacity (k + 1) f line =
          nextLineCalls term capacity k g (writeAt line 0 (l ++ [term])) := by
        intro k
        show nextLineCalls term capacity k (nextLine term f line capacity).file
          (nextLine term f line capacity).line = _
        rw [hg]
      constructor
      · intro i l' hi
        cases i with
        | zero =>
          obtain rfl : l = l' := by simpa using hi
          show (nextLine term f line capacity).ret = true ∧
            (nextLine term f line capacity).line.take (l.length + 1) = l ++ [term]
          rw [hg]
          exact ⟨rfl, htake⟩
        | succ i =>
          rw [hunfold]
          exact hrec.1 i l' (by simpa using hi)
      · rw [List.length_cons, hunfold]
        exact hrec.2

/-- C6: for `k ≥ 1` lines without a newline byte, each at most `capacity - 2`
bytes long, on a fresh Read handle over `l1 '\n' l2 '\n' ... lk`, the `i`-th of
`k + 1` successive `nextLine` calls (`1 ≤ i ≤ k`) returns `line` and leaves in
it the bytes of `li` followed by the string termination (the newline is
consumed and not stored), and call `k + 1` returns `NULL`. -/
theorem nextLine_reads_successive_lines (term : Byte) (capacity : Nat)
    (ls : List (List Byte)) (line : List Byte) (hne : ls ≠ [])
    (hshort : ∀ l ∈ ls, (10 : Byte) ∉ l ∧ l.length + 2 ≤ capacity)
    (hbuf : capacity ≤ line.length) :
    ∃ f, openFile (some (joinLines ls)) 'r' = some f ∧
      (∀ i l, ls[i]? = some l →
        (nextLineCalls term capacity i f line).ret = true ∧
        (nextLineCalls term capacity i f line).line.take (l.length + 1) = l ++ [term]) ∧
      (nextLineCalls term capacity ls.length f line).ret = false := by
  refine ⟨_, openFile_read _, ?_⟩
  exact nextLineCalls_spec term capacity ls hne
    (fun l hl => ⟨fun b hb hb10 => (hshort l hl).1 (hb10 ▸ hb), (hshort l hl).2⟩)
    _ line rfl (freshFile_inv _ _) rfl (readHandle_pending _) hbuf

theorem nextLine_reads_successive_lines_witness :
    ∃ f, openFile (some (joinLines [[97, 98, 99], [100, 101, 102]])) 'r' = some f ∧
      (∀ i l, [[97, 98, 99], [100, 101, 102]][i]? = some l →
        (nextLineCalls 0 10 i f (List.replicate 10 7)).ret = true ∧
        (nextLineCalls 0 10 i f (List.replicate 10 7)).line.take (l.length + 1) = l ++ [0]) ∧
      (nextLineCalls 0 10 [[97, 98, 99], [100, 101, 102]].length f
        (List.replicate 10 7)).ret = false :=
  nextLine_reads_successive_lines 0 10 [[97, 98, 99], [100, 101, 102]] (List.replicate 10 7)
    (by decide) (by decide) (by decide)

/-- C7: for every capacity of at least 1 and every reachable, unlatched Read
handle whose next `capacity - 1` unread bytes exist and hold no newline,
`nextLine` returns `NULL`. -/
theorem nextLine_fails_on_long_line (term : Byte) (capacity : Nat) (f : File)
    (line pre rest : List Byte) (hcap : 1 ≤ capacity) (hr : Reachable f)
    (hm : f.mode = 'r') (hz : f.fileEndReached = 0) (hp : pending f = pre ++ rest)
    (hlen : pre.length = capacity - 1) (hnl : (10 : Byte) ∉ pre) :
    (nextLine term f line capacity).ret = false := by
  obtain ⟨g, hg, -⟩ := nextLineLoop_long term pre rest 0 f line hm
    (reachable_reachInv f hr).1 hz hp (fun b hb hb10 => hnl (hb10 ▸ hb))
  rw [nextLine_enter term f line capacity hcap hm hz, ← hlen, hg]

theorem nextLine_fails_on_long_line_witness :
    pending (readHandle [97, 98, 99, 100, 101, 102, 10]) = [97, 98] ++ [99, 100, 101, 102, 10] ∧
    (nextLine 0 (readHandle [97, 98, 99, 100, 101, 102, 10]) [7, 7, 7] 3).ret = false :=
  ⟨readHandle_pending _,
    nextLine_fails_on_long_line 0 3 _ [7, 7, 7] [97, 98] [99, 100, 101, 102, 10] (by decide)
      (Reachable.opened (some [97, 98, 99, 100, 101, 102, 10]) 'r' _ rfl) rfl rfl
      (readHandle_pending _) rfl (by decide)⟩

/-- C8, the code at the boundary of the documented contract: with
`maxLength = 4` on the input `"abc\n"` (a line of `maxLength - 1` bytes and its
newline) `nextLine` returns `NULL`, having stored the three bytes and no
termination; the fourth byte of the buffer is untouched. -/
theorem nextLine_rejects_line_of_maxLength_minus_one :
    (nextLine 0 (readHandle [97, 98, 99, 10])
      [7, 7, 7, 7] 4).ret = false ∧
    (nextLine 0 (readHandle [97, 98, 99, 10])
      [7, 7, 7, 7] 4).line = [97, 98, 99, 7] := by
  decide

/-- C9, as stated, fails: with capacity 3 on `"abcdef\n"` the call returns
`NULL` and the caller's buffer `[7, 7, 7]` has become `[97, 98, 7]`. -/
theorem nextLine_failure_overwrites_line :
    (nextLine 0 (readHandle [97, 98, 99, 100, 101, 102, 10]) [7, 7, 7] 3).ret = false ∧
    (nextLine 0 (readHandle [97, 98, 99, 100, 101, 102, 10]) [7, 7, 7] 3).line = [97, 98, 7] ∧
    (nextLine 0 (readHandle [97, 98, 99, 100, 101, 102, 10]) [7, 7, 7] 3).line ≠ [7, 7, 7] := by
  decide

/-- C9 as amended: when `nextLine` fails because the line is too long (the next
`capacity - 1` unread bytes exist and hold no newline), it returns `NULL` and
the caller's buffer holds those `capacity - 1` bytes in its first
`capacity - 1` places, the places after them keep their bytes, and no string
termination has been stored. -/
theorem nextLine_failure_keeps_read_bytes (term : Byte) (capacity : Nat) (f : File)
    (line pre rest : List Byte) (hcap : 1 ≤ capacity) (hr : Reachable f)
    (hm : f.mode = 'r') (hz : f.fileEndReached = 0) (hp : pending f = pre ++ rest)
    (hlen : pre.length = capacity - 1) (hnl : (10 : Byte) ∉ pre)
    (hbuf : capacity ≤ line.length) :
    (nextLine term f line capacity).ret = false ∧
    (nextLine term f line capacity).line = pre ++ line.drop (capacity - 1) := by
  obtain ⟨g, hg, -⟩ := nextLineLoop_long term pre rest 0 f line hm
    (reachable_reachInv f hr).1 hz hp (fun b hb hb10 => hnl (hb10 ▸ hb))
  rw [nextLine_enter term f line capacity hcap hm hz, ← hlen, hg]
  refine ⟨rfl, ?_⟩
  show writeAt line 0 pre = _
  rw [writeAt_eq _ _ _ (by omega)]
  simp

theorem nextLine_failure_keeps_read_bytes_witness :
    (nextLine 0 (readHandle [97, 98, 99, 100, 101, 102, 10]) [7, 7, 7] 3).ret = false ∧
    (nextLine 0 (readHandle [97, 98, 99, 100, 101, 102, 10]) [7, 7, 7] 3).line = [97, 98] ++ [7, 7, 7].drop (3 - 1) :=
  nextLine_failure_keeps_read_bytes 0 3 _ [7, 7, 7] [97, 98] [99, 100, 101, 102, 10] (by decide)
    (Reachable.opened (some [97, 98, 99, 100, 101, 102, 10]) 'r' _ rfl) rfl rfl
    (readHandle_pending _) rfl (by decide) (by decide)

/-! ## Block transfer -/

/-- C10: for every sequence `b` of `N` bytes, `writeBufferToFile` of `b` with
element size 1 and count `N` on a handle opened in Write mode returns `N`;
after closing it and reopening the resource in Read mode,
`readBufferFromFile` with element size 1 and count `N` returns `N` and the
first `N` bytes of the caller's buffer are exactly `b`. -/
theorem block_write_read_roundtrip (b : List Byte) (resource : Option (List Byte))
    (dest : List Byte) :
    ∃ w, openFile resource 'w' = some w ∧
      (writeBufferToFile w 1 b.length b).1 = b.length ∧
      ∃ r, openFile (some (closeFile (writeBufferToFile w 1 b.length b).2)) 'r' = some r ∧
        (readBufferFromFile r 1 b.length dest).1 = b.length ∧
        (readBufferFromFile r 1 b.length dest).2.2.take b.length = b := by
  refine ⟨_, rfl, ?_, _, openFile_read _, ?_, ?_⟩
  · simp only [writeBufferToFile, fwrite, freshFile, one_mul, List.take_length, Nat.div_one]
    split_ifs with h1 h2
    · exact absurd rfl h1.1
    · exact h2.symm
    · rfl
  · simp [writeBufferToFile, fwrite, readBufferFromFile, fread, closeFile, freshFile, readHandle]
  · simp [writeBufferToFile, fwrite, readBufferFromFile, fread, closeFile, freshFile, readHandle,
      store]

/-! ## `numberOfDigits` -/

theorem numberOfDigitsFuel_eq (fuel : Nat) (temp : Int) (digits : Nat)
    (h : temp.natAbs < fuel) :
    numberOfDigitsFuel fuel temp digits = some (digits + Nat.log 10 temp.natAbs) := by
  induction fuel generalizing temp digits with
  | zero => omega
  | succ fuel ih =>
    have habs : (temp.tdiv 10).natAbs = temp.natAbs / 10 := Int.natAbs_tdiv temp 10
    unfold numberOfDigitsFuel
    by_cases hz : temp.tdiv 10 ≠ 0
    · rw [if_pos hz]
      have hne : (temp.tdiv 10).natAbs ≠ 0 := fun h0 => hz (Int.natAbs_eq_zero.mp h0)
      have hge : 10 ≤ temp.natAbs := by
        rw [habs] at hne
        by_contra hlt
        exact hne (Nat.div_eq_of_lt (by omega))
      rw [ih (temp.tdiv 10) (digits + 1) (by rw [habs]; omega), habs,
        Nat.log_of_one_lt_of_le (by decide) hge]
      congr 1
      omega
    · rw [if_neg hz]
      simp only [not_not] at hz
      have hlt : temp.natAbs < 10 := by
        have h0 : temp.natAbs / 10 = 0 := by rw [← habs, hz]; rfl
        by_contra hge
        have := Nat.div_pos (Nat.le_of_not_lt hge) (by decide : 0 < 10)
        omega
      rw [Nat.log_of_lt hlt]
      rfl

/-- The loop of `numberOfDigits` returns for every bound above `|value|`, with
the value that `numberOfDigits` is built from: the function is total. -/
theorem numberOfDigitsFuel_total (fuel : Nat) (value : Int) (h : value.natAbs < fuel) :
    numberOfDigitsFuel fuel value 0 = some (numberOfDigits value - 1) := by
  unfold numberOfDigits
  rw [numberOfDigitsFuel_eq fuel value 0 h,
    numberOfDigitsFuel_eq (value.natAbs + 1) value 0 (Nat.lt_succ_self _)]
  rfl

theorem numberOfDigits_eq_log (value : Int) :
    numberOfDigits value = Nat.log 10 value.natAbs + 1 := by
  unfold numberOfDigits
  rw [numberOfDigitsFuel_eq (value.natAbs + 1) value 0 (Nat.lt_succ_self _)]
  simp

/-- C14: for every integer `v` (so for every 32-bit `int`, 0, the negative
values and `INT_MIN` included) the loop of `numberOfDigits` returns, and
`numberOfDigits v` is the number of decimal digits of `|v|`: it is 1 for
`v = 0`, and otherwise it is the one `d ≥ 1` with `10^(d-1) ≤ |v| < 10^d`. -/
theorem numberOfDigits_counts_decimal_digits (v : Int) :
    (∀ fuel, v.natAbs < fuel → numberOfDigitsFuel fuel v 0 = some (numberOfDigits v - 1)) ∧
    (v = 0 → numberOfDigits v = 1) ∧
    (v ≠ 0 → 1 ≤ numberOfDigits v ∧ 10 ^ (numberOfDigits v - 1) ≤ v.natAbs ∧
      v.natAbs < 10 ^ numberOfDigits v) ∧
    (v ≠ 0 → ∀ d, 1 ≤ d → 10 ^ (d - 1) ≤ v.natAbs → v.natAbs < 10 ^ d →
      d = numberOfDigits v) := by
  refine ⟨fun fuel h => numberOfDigitsFuel_total fuel v h, ?_, ?_, ?_⟩
  · intro h0
    rw [numberOfDigits_eq_log, h0]
    simp
  · intro hne
    have hn : v.natAbs ≠ 0 := fun h => hne (Int.natAbs_eq_zero.mp h)
    rw [numberOfDigits_eq_log]
    exact ⟨by omega, Nat.pow_log_le_self 10 hn, Nat.lt_pow_succ_log_self (by decide) _⟩
  · intro hne d hd hlo hhi
    rw [numberOfDigits_eq_log]
    obtain ⟨e, rfl⟩ : ∃ e, d = e + 1 := ⟨d - 1, by omega⟩
    have hlog : Nat.log 10 v.natAbs = e :=
      Nat.log_eq_of_pow_le_of_lt_pow (by simpa using hlo) hhi
    rw [hlog]

/-! ## Strings: length and concatenation -/

theorem strLengthLoop_eq (term : Byte) (a rest : List Byte) (k : Nat) (ha : term ∉ a) :
    strLengthLoop term (a ++ term :: rest) k = some (k + a.length) := by
  induction a generalizing k with
  | nil => simp [strLengthLoop]
  | cons c a ih =>
    have hc : c ≠ term := fun h => ha (h ▸ List.mem_cons_self _ _)
    have hrest : term ∉ a := fun h => ha (List.mem_cons_of_mem _ h)
    show strLengthLoop term (c :: (a ++ term :: rest)) k = _
    unfold strLengthLoop
    rw [if_pos hc, ih (k + 1) hrest, List.length_cons]
    congr 1
    omega

theorem strLength_eq (term : Byte) (a rest : List Byte) (ha : term ∉ a) :
    strLength term (a ++ term :: rest) = some a.length := by
  unfold strLength
  rw [strLengthLoop_eq term a rest 0 ha, Nat.zero_add]

theorem strConcatenateSeek_eq (term : Byte) (a rest : List Byte) (k : Nat) (ha : term ∉ a) :
    strConcatenateSeek term (a ++ term :: rest) k = some (k + a.length) := by
  induction a generalizing k with
  | nil => simp [strConcatenateSeek]
  | cons c a ih =>
    have hc : c ≠ term := fun h => ha (h ▸ List.mem_cons_self _ _)
    have hrest : term ∉ a := fun h => ha (List.mem_cons_of_mem _ h)
    show strConcatenateSeek term (c :: (a ++ term :: rest)) k = _
    unfold strConcatenateSeek
    rw [if_pos hc, ih (k + 1) hrest, List.length_cons]
    congr 1
    omega

theorem strConcatenateCopy_eq (term : Byte) (b junk dest : List Byte) (k : Nat)
    (hb : term ∉ b) :
    strConcatenateCopy term (b ++ term :: junk) dest k =
      some (k + b.length, writeAt dest k b) := by
  induction b generalizing k dest with
  | nil => simp [strConcatenateCopy, writeAt]
  | cons c b ih =>
    have hc : c ≠ term := fun h => hb (h ▸ List.mem_cons_self _ _)
    have hrest : term ∉ b := fun h => hb (List.mem_cons_of_mem _ h)
    show strConcatenateCopy term (c :: (b ++ term :: junk)) dest k = _
    unfold strConcatenateCopy
    rw [if_pos hc, ih (dest.set k c) (k + 1) hrest, List.length_cons]
    have : k + 1 + b.length = k + (b.length + 1) := by omega
    rw [this]
    rfl

/-- What `strConcatenate` returns and leaves in memory: the offset of the new
termination byte, and the destination with the source and a termination byte
stored from the old termination byte on. -/
theorem strConcatenate_eq (term : Byte) (a b tail junk : List Byte) (ha : term ∉ a)
    (hb : term ∉ b) :
    strConcatenate term (a ++ term :: tail) (b ++ term :: junk) =
      some (a.length + b.length, writeAt (a ++ term :: tail) a.length (b ++ [term])) := by
  unfold strConcatenate
  rw [strConcatenateSeek_eq term a tail 0 ha]
  simp only [Nat.zero_add]
  rw [strConcatenateCopy_eq term b junk _ a.length hb]
  simp only
  rw [writeAt_append]
  rfl

theorem strConcatenate_memory (term : Byte) (a b tail : List Byte)
    (hroom : b.length ≤ tail.length) :
    writeAt (a ++ term :: tail) a.length (b ++ [term]) =
      a ++ b ++ term :: tail.drop b.length := by
  rw [writeAt_eq _ _ _ (by simp only [List.length_append, List.length_cons, List.length_nil]; omega)]
  rw [List.take_left' rfl]
  have hdrop : List.drop (a.length + (b ++ [term]).length) (a ++ term :: tail) =
      tail.drop b.length := by
    rw [List.length_append, List.length_singleton, List.drop_append_eq_append_drop,
      List.drop_eq_nil_of_le (by omega), List.nil_append]
    have : a.length + (b.length + 1) - a.length = b.length + 1 := by omega
    rw [this, List.drop_succ_cons]
  rw [hdrop]
  simp

/-- C15: for strings `a` and `b` (no termination byte inside) held in two
blocks that do not overlap, the destination holding `a`, its termination byte
and room for at least the bytes of `b`: after `strConcatenate` the destination
holds the bytes of `a`, then those of `b`, then the termination byte (then
what is left of the old content), and its `strLength` is the sum of the
`strLength` of `a` and of `b`. -/
theorem strConcatenate_appends (term : Byte) (a b tail junk : List Byte) (ha : term ∉ a)
    (hb : term ∉ b) (hroom : b.length ≤ tail.length) :
    ∃ p mem, strConcatenate term (a ++ term :: tail) (b ++ term :: junk) = some (p, mem) ∧
      mem = a ++ b ++ term :: tail.drop b.length ∧
      strLength term (a ++ term :: tail) = some a.length ∧
      strLength term (b ++ term :: junk) = some b.length ∧
      strLength term mem = some (a.length + b.length) := by
  refine ⟨_, _, strConcatenate_eq term a b tail junk ha hb, strConcatenate_memory term a b tail hroom,
    strLength_eq term a tail ha, strLength_eq term b junk hb, ?_⟩
  rw [strConcatenate_memory term a b tail hroom]
  have hab : term ∉ a ++ b := by
    intro h
    rcases List.mem_append.mp h with h | h
    · exact ha h
    · exact hb h
  rw [strLength_eq term (a ++ b) _ hab, List.length_append]

theorem strConcatenate_appends_witness :
    ∃ p mem, strConcatenate 0 ([97, 98] ++ 0 :: [7, 7, 7]) ([99, 100] ++ 0 :: []) = some (p, mem) ∧
      mem = [97, 98] ++ [99, 100] ++ 0 :: [7, 7, 7].drop [99, 100].length ∧
      strLength 0 ([97, 98] ++ 0 :: [7, 7, 7]) = some [97, 98].length ∧
      strLength 0 ([99, 100] ++ 0 :: []) = some [99, 100].length ∧
      strLength 0 mem = some ([97, 98].length + [99, 100].length) :=
  strConcatenate_appends 0 [97, 98] [99, 100] [7, 7, 7] [] (by decide) (by decide) (by decide)

/-- C16, the code on `destination = "ab"`, `source = "cd"`: the pointer that
`strConcatenate` returns is `destination + 4`, the place of the new termination
byte, and not `destination`; the string that starts there has length 0 and not
`2 + 2`. -/
theorem strConcatenate_returns_end_pointer :
    strConcatenate 0 [97, 98, 0, 7, 7, 7] [99, 100, 0] =
      some (4, [97, 98, 99, 100, 0, 7]) ∧
    strLength 0 ([97, 98, 99, 100, 0, 7].drop 4) = some 0 ∧
    strLength 0 [97, 98, 0, 7, 7, 7] = some 2 ∧ strLength 0 [99, 100, 0] = some 2 := by
  decide

/-! ## Strings: search -/

theorem strFindLoop_self (term : Byte) (s junk r p : List Byte) (start : Int)
    (hs : s = p ++ r) (ht : term ∉ s) (hne : s ≠ [])
    (hstart : (p = [] ∧ start = -1) ∨ (p ≠ [] ∧ start = 0)) :
    strFindLoop term (s ++ term :: junk) s.length (r ++ term :: junk) p.length start p.length =
      some (CPtr.offset 0) := by
  induction r generalizing p start with
  | nil =>
    have hp : p ≠ [] := by
      intro h
      rw [h] at hs
      exact hne hs
    have h0 : start = 0 := by
      rcases hstart with h | h
      · exact absurd h.1 hp
      · exact h.2
    show strFindLoop term (s ++ term :: junk) s.length (term :: junk) p.length start p.length = _
    unfold strFindLoop
    rw [if_neg (by simp), h0]
    rfl
  | cons c r ih =>
    have hc : c ≠ term := by
      intro h
      apply ht
      rw [hs, ← h]
      simp
    have hlen : p.length ≠ s.length := by
      rw [hs, List.length_append, List.length_cons]
      omega
    have hget : (s ++ term :: junk)[p.length]? = some c := by
      rw [hs, List.append_assoc, List.getElem?_append_right (Nat.le_refl _), Nat.sub_self]
      simp
    show strFindLoop term (s ++ term :: junk) s.length (c :: (r ++ term :: junk)) p.length start
      p.length = _
    unfold strFindLoop
    rw [if_pos hc, if_neg hlen]
    simp only [hget]
    rw [if_neg hc, if_pos trivial]
    have hstart1 : (if start = -1 then (p.length : Int) else start) = 0 := by
      rcases hstart with h | h
      · rw [if_pos h.2, h.1]
        rfl
      · rw [h.2]
        rfl
    rw [hstart1]
    have := ih (p ++ [c]) 0 (by rw [hs]; simp) (Or.inr ⟨by simp, rfl⟩)
    rw [List.length_append, List.length_singleton] at this
    exact this

/-- C17: for every non-empty string `s` (no termination byte inside), the
two-argument `strFind(s, s)` returns the pointer to the start of `s`. -/
theorem strFind_self_is_start (term : Byte) (s junk : List Byte) (hne : s ≠ [])
    (ht : term ∉ s) :
    strFind term (s ++ term :: junk) (s ++ term :: junk) = some (CPtr.offset 0) := by
  unfold strFind
  rw [strLength_eq term s junk ht]
  exact strFindLoop_self term s junk s [] (-1) rfl ht hne (Or.inl ⟨rfl, rfl⟩)

theorem strFind_self_is_start_witness :
    strFind 0 ([97, 98, 97] ++ 0 :: []) ([97, 98, 97] ++ 0 :: []) = some (CPtr.offset 0) :=
  strFind_self_is_start 0 [97, 98, 97] [] (by decide) (by decide)

/-- C18, the code on `str = "aab"`, `substr = "ab"`: `"ab"` occurs in `"aab"` at
offset 1, and the two-argument `strFind` returns `NULL`. -/
theorem strFind_misses_occurrence :
    ([97, 97, 98] : List Byte).drop 1 = [97, 98] ∧
    strFind 0 [97, 97, 98, 0] [97, 98, 0] = some CPtr.null := by
  decide

/-- C19, the code on `str = "xab"`, `substr = "abc"`: the two-argument `strFind`
returns `str + 1`, although `"abc"` does not occur in `"xab"` (only its first
two bytes are found there, at the end of `str`). -/
theorem strFind_returns_partial_match :
    strFind 0 [120, 97, 98, 0] [97, 98, 99, 0] = some (CPtr.offset 1) ∧
    ¬ [97, 98, 99] <:+: ([120, 97, 98] : List Byte) := by
  decide

/-- C20, the code on `str = "abc"`, the empty `substr` and
`maxSymbolsToCheck = 5`: the three-argument `strFind` returns the pointer
`str - 1`, which is not `NULL` and lies before `str`. -/
theorem strFind3_empty_substr_points_before_str :
    strFind3 0 [97, 98, 99, 0] [0] 5 = some (CPtr.offset (-1)) := by
  decide

/-! ## The write path -/

theorem writeChar_ok (file : File) (b : Byte) (hm : file.mode = 'w' ∨ file.mode = 'a')
    (hs : file.cfile.putcLeft = none) :
    writeChar file b = ((b.val : Int), appendBytes file [b]) := by
  have hmode : ¬ (file.mode ≠ 'w' ∧ file.mode ≠ 'a') := by
    rintro ⟨h1, h2⟩
    rcases hm with h | h
    · exact h1 h
    · exact h2 h
  unfold writeChar
  rw [if_neg hmode]
  simp only [putc, hs, if_true]
  simp [appendBytes, hs]

theorem appendBytes_mode (file : File) (bs : List Byte) : (appendBytes file bs).mode = file.mode :=
  rfl

theorem appendBytes_sink (file : File) (bs : List Byte) :
    (appendBytes file bs).cfile.putcLeft = file.cfile.putcLeft :=
  rfl

theorem appendBytes_append (file : File) (as bs : List Byte) :
    appendBytes (appendBytes file as) bs = appendBytes file (as ++ bs) := by
  simp [appendBytes, Nat.add_assoc]

theorem appendBytes_nil (file : File) : appendBytes file [] = file := by
  simp [appendBytes]

theorem writeStringLoop_ok (term : Byte) (s : List Byte) (file : File)
    (hm : file.mode = 'w' ∨ file.mode = 'a') (hs : file.cfile.putcLeft = none)
    (ht : term ∈ s) :
    writeStringLoop term s file = some (0, appendBytes file (cstr term s)) := by
  induction s generalizing file with
  | nil => simp at ht
  | cons c s ih =>
    unfold writeStringLoop
    by_cases hc : c ≠ term
    · rw [if_pos hc, writeChar_ok file c hm hs]
      have hne : ¬ ((c.val : Int) = FILE_END) := byte_ne_FILE_END c
      simp only [if_neg hne]
      have hts : term ∈ s := by
        rcases List.mem_cons.mp ht with h | h
        · exact absurd h.symm hc
        · exact h
      rw [ih (appendBytes file [c]) hm hs hts, appendBytes_append]
      simp [cstr, List.takeWhile_cons, hc]
    · rw [if_neg hc]
      simp only [not_not] at hc
      simp [cstr, List.takeWhile_cons, hc, appendBytes_nil]

theorem writeString_ok (term : Byte) (s : List Byte) (file : File)
    (hm : file.mode = 'w' ∨ file.mode = 'a') (hs : file.cfile.putcLeft = none)
    (ht : term ∈ s) :
    writeString term file s = some (0, appendBytes file (cstr term s)) := by
  have hmode : ¬ (file.mode ≠ 'w' ∧ file.mode ≠ 'a') := by
    rintro ⟨h1, h2⟩
    rcases hm with h | h
    · exact h1 h
    · exact h2 h
  unfold writeString
  rw [if_neg hmode]
  exact writeStringLoop_ok term s file hm hs ht

theorem writeFormattedLoop_default_branch (term x : Byte) (rest : List Byte)
    (args : List Arg) (file : File) (n : Int) (hm : file.mode = 'w' ∨ file.mode = 'a')
    (hs : file.cfile.putcLeft = none) (hpct : (37 : Byte) ≠ term)
    (hx : x ≠ 99 ∧ x ≠ 100 ∧ x ≠ 115) :
    writeFormattedLoop term (37 :: x :: rest) args file n =
      writeFormattedLoop term rest args (appendBytes file [37, x]) n := by
  conv_lhs => unfold writeFormattedLoop
  rw [if_pos hpct, if_pos rfl]
  simp only [if_neg hx.1, if_neg hx.2.1, if_neg hx.2.2]
  rw [writeChar_ok file 37 hm hs]
  simp only [if_neg (byte_ne_FILE_END 37)]
  rw [writeChar_ok (appendBytes file [37]) x hm hs]
  simp only [if_neg (byte_ne_FILE_END x), appendBytes_append]
  rfl

/-- C12: when the scan of `writeFormatted` stands at a `%` that is followed by
a byte `x` other than `c`, `d` and `s` (`x` may be `%`), on a write-mode handle
whose sink does not fail: the two bytes `%` and `x` are written, and the scan
goes on behind them with the same arguments and the same count of
substitutions. -/
theorem writeFormatted_passes_unknown_specifier (term x : Byte) (rest : List Byte)
    (args : List Arg) (file : File) (n : Int) (hm : file.mode = 'w' ∨ file.mode = 'a')
    (hs : file.cfile.putcLeft = none) (hpct : (37 : Byte) ≠ term)
    (hx : x ≠ 99 ∧ x ≠ 100 ∧ x ≠ 115) :
    writeFormattedLoop term (37 :: x :: rest) args file n =
      writeFormattedLoop term rest args (appendBytes file [37, x]) n :=
  writeFormattedLoop_default_branch term x rest args file n hm hs hpct hx

theorem writeFormatted_passes_unknown_specifier_witness :
    writeFormatted 0 writeHandle [37, 113, 0] [] = some (0, appendBytes writeHandle [37, 113]) ∧
    writeFormattedLoop 0 (37 :: 113 :: [0]) [] writeHandle 0 =
      writeFormattedLoop 0 [0] [] (appendBytes writeHandle [37, 113]) 0 :=
  ⟨rfl,
    writeFormatted_passes_unknown_specifier 0 113 [0] [] writeHandle 0 (Or.inl rfl) rfl
      (by decide) (by decide)⟩

/-! ## `intToStr` -/

/-- C13, the code on `value = INT_MIN`: `-value` is not an `int`, the value
stays negative, and the ten digit bytes are `'0' + d` for the negative
`d = -2, -1, -4, -7, -4, -8, -3, -6, -4, -8`, so that `str` holds
`-./,),(-*,(` and not `-2147483648`. -/
theorem intToStr_garbles_INT_MIN :
    intToStr 0 (-2147483648) (List.replicate 12 7) =
      [45, 46, 47, 44, 41, 44, 40, 45, 42, 44, 40, 0] ∧
    numberOfDigits (-2147483648) = 10 ∧
    wrapInt32 (- (-2147483648)) = -2147483648 := by
  decide

theorem tdiv_pow_ten (k : Nat) : ((10 : Int) ^ (k + 1)).tdiv 10 = (10 : Int) ^ k := by
  rw [Int.tdiv_eq_ediv (by positivity) (by decide), pow_succ]
  exact Int.mul_ediv_cancel _ (by decide)

theorem intToStrFuel_eq (k fuel : Nat) (value : Int) (i : Nat) (str : List Byte)
    (h : k + 2 ≤ fuel) :
    intToStrFuel fuel ((10 : Int) ^ k) value i str =
      some (i + (k + 1), writeAt str i (intDigitBytes value (k + 1))) := by
  induction k generalizing fuel i str with
  | zero =>
    obtain ⟨fuel, rfl⟩ : ∃ f, fuel = f + 2 := ⟨fuel - 2, by omega⟩
    unfold intToStrFuel
    rw [if_pos (by decide)]
    unfold intToStrFuel
    rw [if_neg (by decide)]
    rfl
  | succ k ih =>
    obtain ⟨fuel, rfl⟩ : ∃ f, fuel = f + 1 := ⟨fuel - 1, by omega⟩
    have hpos : (10 : Int) ^ (k + 1) ≥ 1 := by
      have : (0 : Int) < 10 ^ (k + 1) := by positivity
      omega
    unfold intToStrFuel
    rw [if_pos hpos, tdiv_pow_ten, ih fuel (i + 1) _ (by omega)]
    have : i + 1 + (k + 1) = i + (k + 1 + 1) := by omega
    rw [this]
    rfl

/-- The loop of `intToStr` returns for every bound of at least `digits + 1`
iterations, with the result that `intToStr3` is built from. -/
theorem intToStrFuel_total (fuel digits : Nat) (value : Int) (i : Nat) (str : List Byte)
    (hd : 1 ≤ digits) (h : digits + 1 ≤ fuel) :
    intToStrFuel fuel ((10 : Int) ^ (digits - 1)) value i str =
      some (i + digits, writeAt str i (intDigitBytes value digits)) := by
  obtain ⟨k, rfl⟩ : ∃ k, digits = k + 1 := ⟨digits - 1, by omega⟩
  exact intToStrFuel_eq k fuel value i str (by omega)

theorem intDigitBytes_length (value : Int) (k : Nat) : (intDigitBytes value k).length = k := by
  induction k with
  | zero => rfl
  | succ k ih => simp [intDigitBytes, ih]

theorem numberOfDigits_pos (value : Int) : 1 ≤ numberOfDigits value := by
  rw [numberOfDigits_eq_log]
  omega

theorem intToStr3_eq (term : Byte) (value : Int) (str : List Byte) (digits : Nat)
    (hd : 1 ≤ digits) :
    intToStr3 term value str digits =
      writeAt str 0 ((if value < 0 then [45] else []) ++
        intDigitBytes (if value < 0 then wrapInt32 (-value) else value) digits ++ [term]) := by
  unfold intToStr3
  simp only
  rw [intToStrFuel_total (digits + 2) digits _ _ _ hd (by omega)]
  simp only [Option.getD_some]
  by_cases hneg : value < 0
  · simp only [if_pos hneg]
    rw [List.append_assoc, writeAt_append, writeAt_append]
    simp only [List.length_singleton, Nat.zero_add, intDigitBytes_length]
    rfl
  · simp only [if_neg hneg]
    rw [List.nil_append, writeAt_append]
    simp only [Nat.zero_add, intDigitBytes_length]
    rfl

theorem intToStr_eq (term : Byte) (value : Int) (str : List Byte) :
    intToStr term value str = writeAt str 0 (intText value ++ [term]) := by
  unfold intToStr intText
  rw [intToStr3_eq term value str _ (numberOfDigits_pos value)]

theorem intText_length (value : Int) :
    (intText value).length = (if value < 0 then 1 else 0) + numberOfDigits value := by
  unfold intText
  rw [List.length_append, intDigitBytes_length]
  split_ifs <;> rfl

theorem cstr_append_term (term : Byte) (a rest : List Byte) :
    cstr term (a ++ term :: rest) = cstr term a := by
  induction a with
  | nil => simp [cstr]
  | cons c a ih =>
    unfold cstr at ih ⊢
    by_cases hc : c = term
    · simp [List.takeWhile_cons, hc]
    · show List.takeWhile (fun b => decide (b ≠ term)) (c :: (a ++ term :: rest)) =
        List.takeWhile (fun b => decide (b ≠ term)) (c :: a)
      rw [List.takeWhile_cons, List.takeWhile_cons, ih]

/-- In a block with room for the sign, the digits and the termination byte,
`intToStr` leaves the sign and digit bytes, the termination byte, and the rest
of the block as it was. -/
theorem intToStr_memory (term : Byte) (value : Int) (str : List Byte)
    (hroom : (intText value).length + 1 ≤ str.length) :
    intToStr term value str =
      intText value ++ term :: str.drop ((intText value).length + 1) := by
  rw [intToStr_eq, writeAt_eq _ _ _ (by simpa using hroom)]
  simp

theorem intToStrText_eq (term : Byte) (value : Int) :
    intToStrText term value = cstr term (intText value) := by
  unfold intToStrText
  rw [intToStr_memory term value _ (by rw [intText_length, List.length_replicate]; split_ifs <;> omega),
    cstr_append_term]

/-- The `%d` branch of `writeFormatted`: the block it allocates is large enough,
so the string written is the `intToStr` rendering. -/
theorem convertedToStr_eq (term : Byte) (v : Int) :
    term ∈ intToStr3 term v
        (List.replicate ((if v < 0 then numberOfDigits v + 1 else numberOfDigits v) + 1) 0)
        (if v < 0 then (if v < 0 then numberOfDigits v + 1 else numberOfDigits v) - 1
          else (if v < 0 then numberOfDigits v + 1 else numberOfDigits v)) ∧
    cstr term (intToStr3 term v
        (List.replicate ((if v < 0 then numberOfDigits v + 1 else numberOfDigits v) + 1) 0)
        (if v < 0 then (if v < 0 then numberOfDigits v + 1 else numberOfDigits v) - 1
          else (if v < 0 then numberOfDigits v + 1 else numberOfDigits v))) =
      intToStrText term v := by
  have hd : (if v < 0 then (if v < 0 then numberOfDigits v + 1 else numberOfDigits v) - 1
      else (if v < 0 then numberOfDigits v + 1 else numberOfDigits v)) = numberOfDigits v := by
    split_ifs <;> omega
  rw [hd]
  have hmem := intToStr_memory term v
    (List.replicate ((if v < 0 then numberOfDigits v + 1 else numberOfDigits v) + 1) 0)
    (by rw [intText_length, List.length_replicate]; split_ifs <;> omega)
  unfold intToStr at hmem
  rw [hmem, cstr_append_term, intToStrText_eq]
  exact ⟨by simp, rfl⟩

theorem digitByte_val (m k : Nat) :
    (toByte (48 + ((m : Int).tdiv ((10 : Int) ^ k)).tmod 10)).val = 48 + m / 10 ^ k % 10 := by
  have h1 : (m : Int).tdiv ((10 : Int) ^ k) = ((m / 10 ^ k : Nat) : Int) := by
    rw [Int.tdiv_eq_ediv (by positivity) (by positivity)]
    push_cast
    rfl
  have h2 : (((m / 10 ^ k : Nat) : Int)).tmod 10 = ((m / 10 ^ k % 10 : Nat) : Int) := by
    rw [Int.tmod_eq_emod (by positivity) (by decide)]
    push_cast
    rfl
  rw [h1, h2]
  have hlt : m / 10 ^ k % 10 < 10 := Nat.mod_lt _ (by decide)
  show ((48 + ((m / 10 ^ k % 10 : Nat) : Int)) % 256).toNat = 48 + m / 10 ^ k % 10
  omega

theorem intDigitBytes_range (m k : Nat) :
    ∀ b ∈ intDigitBytes (m : Int) k, 48 ≤ b.val ∧ b.val ≤ 57 := by
  induction k with
  | zero => simp [intDigitBytes]
  | succ k ih =>
    intro b hb
    rcases List.mem_cons.mp hb with h | h
    · rw [h, digitByte_val]
      have hlt : m / 10 ^ k % 10 < 10 := Nat.mod_lt _ (by decide)
      omega
    · exact ih b h

theorem intDigitBytes_foldl (m k acc : Nat) :
    (intDigitBytes (m : Int) k).foldl (fun acc b => 10 * acc + (b.val - 48)) acc =
      acc * 10 ^ k + m % 10 ^ k := by
  induction k generalizing acc with
  | zero => simp [intDigitBytes, Nat.mod_one]
  | succ k ih =>
    show (intDigitBytes (m : Int) k).foldl _ (10 * acc +
      ((toByte (48 + ((m : Int).tdiv ((10 : Int) ^ k)).tmod 10)).val - 48)) = _
    rw [ih, digitByte_val, Nat.mod_pow_succ]
    have : 48 + m / 10 ^ k % 10 - 48 = m / 10 ^ k % 10 := by omega
    rw [this]
    ring

theorem intDigitBytes_value (m : Nat) (k : Nat) (h : m < 10 ^ k) :
    decimalValue (intDigitBytes (m : Int) k) = m := by
  unfold decimalValue
  rw [intDigitBytes_foldl, Nat.mod_eq_of_lt h]
  omega

theorem intDigitBytes_head (m : Nat) (hm : m ≠ 0) :
    (intDigitBytes (m : Int) (Nat.log 10 m + 1)).head? ≠ some 48 := by
  show some (toByte (48 + ((m : Int).tdiv ((10 : Int) ^ Nat.log 10 m)).tmod 10)) ≠ some 48
  intro h
  have hv := congrArg Fin.val (Option.some.inj h)
  rw [digitByte_val] at hv
  have hlo : 10 ^ Nat.log 10 m ≤ m := Nat.pow_log_le_self 10 hm
  have hhi : m < 10 ^ (Nat.log 10 m + 1) := Nat.lt_pow_succ_log_self (by decide) m
  have hq1 : 1 ≤ m / 10 ^ Nat.log 10 m := (Nat.one_le_div_iff (by positivity)).mpr hlo
  have hq2 : m / 10 ^ Nat.log 10 m < 10 := by
    rw [Nat.div_lt_iff_lt_mul (by positivity)]
    rw [pow_succ, Nat.mul_comm] at hhi
    exact hhi
  have h48 : ((48 : Byte)).val = 48 := rfl
  rw [h48, Nat.mod_eq_of_lt hq2] at hv
  omega

/-- Away from `INT_MIN` the text of `intToStr` is the canonical decimal text:
for every `int` value `v` other than `INT_MIN`, in a block with room for it,
`intToStr` leaves a `-` exactly when `v < 0`, then `numberOfDigits v` digit
bytes, most significant first, that stand for `|v|` and do not start with `0`
unless `v = 0`, then the termination byte. -/
theorem intToStr_canonical (term : Byte) (v : Int) (str : List Byte)
    (hlo : -2147483648 < v) (hhi : v < 2147483648)
    (hroom : (intText v).length + 1 ≤ str.length) :
    ∃ ds, intToStr term v str =
        (if v < 0 then [45] else []) ++ ds ++ term :: str.drop ((intText v).length + 1) ∧
      ds.length = numberOfDigits v ∧ (∀ b ∈ ds, 48 ≤ b.val ∧ b.val ≤ 57) ∧
      decimalValue ds = v.natAbs ∧ (v ≠ 0 → ds.head? ≠ some 48) := by
  have habs : (if v < 0 then wrapInt32 (-v) else v) = ((v.natAbs : Nat) : Int) := by
    split_ifs with hneg
    · unfold wrapInt32
      omega
    · omega
  refine ⟨intDigitBytes ((v.natAbs : Nat) : Int) (numberOfDigits v), ?_, intDigitBytes_length _ _,
    intDigitBytes_range _ _, ?_, ?_⟩
  · rw [intToStr_memory term v str hroom]
    unfold intText
    rw [habs]
  · apply intDigitBytes_value
    rw [numberOfDigits_eq_log]
    exact Nat.lt_pow_succ_log_self (by decide) _
  · intro hne
    rw [numberOfDigits_eq_log]
    exact intDigitBytes_head _ (fun h => hne (Int.natAbs_eq_zero.mp h))

/-! ## The formatter -/

theorem writeFormattedLoop_at_term (term : Byte) (junk : List Byte) (args : List Arg)
    (file : File) (n : Int) :
    writeFormattedLoop term (term :: junk) args file n = some (n, file) := by
  unfold writeFormattedLoop
  rw [if_neg (by simp)]

/-- The scan loop on a format in which no `%c` is met: on a write-mode handle
whose sink never fails it writes the text the format stands for and adds the
number of `%d` and `%s` to the count. -/
theorem writeFormattedLoop_render (term : Byte) (m : Nat) :
    ∀ (fmt junk : List Byte) (args : List Arg) (file : File) (n : Int) (out : List Byte)
      (k : Int), fmt.length ≤ m → (file.mode = 'w' ∨ file.mode = 'a') →
      file.cfile.putcLeft = none → term ∉ fmt → hasCharSpecifier fmt = false →
      renderFormat term fmt args = some (out, k) →
      writeFormattedLoop term (fmt ++ term :: junk) args file n =
        some (n + k, appendBytes file out) := by
  induction m with
  | zero =>
    intro fmt junk args file n out k hlen hm hs ht hnc hr
    obtain rfl : fmt = [] := List.eq_nil_of_length_eq_zero (by omega)
    simp only [renderFormat, Option.some.injEq, Prod.mk.injEq] at hr
    obtain ⟨rfl, rfl⟩ := hr
    rw [appendBytes_nil, Int.add_zero]
    exact writeFormattedLoop_at_term term junk args file n
  | succ m ih =>
    intro fmt junk args file n out k hlen hm hs ht hnc hr
    cases fmt with
    | nil =>
      simp only [renderFormat, Option.some.injEq, Prod.mk.injEq] at hr
      obtain ⟨rfl, rfl⟩ := hr
      rw [appendBytes_nil, Int.add_zero]
      exact writeFormattedLoop_at_term term junk args file n
    | cons c rest =>
      have hc : c ≠ term := fun h => ht (h ▸ List.mem_cons_self _ _)
      have htrest : term ∉ rest := fun h => ht (List.mem_cons_of_mem _ h)
      have hlen1 : rest.length ≤ m := by
        rw [List.length_cons] at hlen
        omega
      by_cases hpct : c = 37
      · subst hpct
        cases rest with
        | nil => simp [renderFormat] at hr
        | cons x rest1 =>
          have htrest1 : term ∉ rest1 := fun h => htrest (List.mem_cons_of_mem _ h)
          have hlen2 : rest1.length ≤ m := by
            rw [List.length_cons] at hlen1
            omega
          show writeFormattedLoop term (37 :: x :: (rest1 ++ term :: junk)) args file n = _
          by_cases hx99 : x = 99
          · subst hx99
            simp [hasCharSpecifier] at hnc
          · have hnc1 : hasCharSpecifier rest1 = false := by
              simpa [hasCharSpecifier, hx99] using hnc
            by_cases hx100 : x = 100
            · subst hx100
              cases args with
              | nil => simp [renderFormat] at hr
              | cons a args1 =>
                cases a with
                | char a => simp [renderFormat] at hr
                | int v =>
                  simp only [renderFormat, if_true, if_neg hx99, Option.map_eq_some',
                    Prod.mk.injEq] at hr
                  obtain ⟨r, hr1, rfl, rfl⟩ := hr
                  obtain ⟨hmem, hcstr⟩ := convertedToStr_eq term v
                  unfold writeFormattedLoop
                  rw [if_pos hc, if_pos rfl]
                  simp only [if_true, if_neg hx99, writeString_ok term _ file hm hs hmem, hcstr]
                  rw [if_neg (by decide)]
                  rw [ih rest1 junk args1 (appendBytes file (intToStrText term v)) (n + 1) r.1 r.2
                    hlen2 hm hs htrest1 hnc1 (by rw [hr1]), appendBytes_append]
                  congr 2
                  omega
                | str s => simp [renderFormat] at hr
            · by_cases hx115 : x = 115
              · subst hx115
                cases args with
                | nil => simp [renderFormat] at hr
                | cons a args1 =>
                  cases a with
                  | char a => simp [renderFormat] at hr
                  | int v => simp [renderFormat] at hr
                  | str s =>
                    by_cases hmem : term ∈ s
                    · simp only [renderFormat, if_true, if_neg hx99, if_neg hx100, if_pos hmem,
                        Option.map_eq_some', Prod.mk.injEq] at hr
                      obtain ⟨r, hr1, rfl, rfl⟩ := hr
                      unfold writeFormattedLoop
                      rw [if_pos hc, if_pos rfl]
                      simp only [if_true, if_neg hx99, if_neg hx100,
                        writeString_ok term s file hm hs hmem]
                      rw [if_neg (by decide)]
                      rw [ih rest1 junk args1 (appendBytes file (cstr term s)) (n + 1) r.1 r.2
                        hlen2 hm hs htrest1 hnc1 (by rw [hr1]), appendBytes_append]
                      congr 2
                      omega
                    · simp [renderFormat, hmem] at hr
              · simp only [renderFormat, if_true, if_neg hx99, if_neg hx100, if_neg hx115,
                  Option.map_eq_some', Prod.mk.injEq] at hr
                obtain ⟨r, hr1, rfl, rfl⟩ := hr
                rw [writeFormattedLoop_default_branch term x _ args file n hm hs hc
                  ⟨hx99, hx100, hx115⟩]
                rw [ih rest1 junk args (appendBytes file [37, x]) n r.1 r.2 hlen2 hm hs htrest1
                  hnc1 (by rw [hr1]), appendBytes_append]
                rfl
      · have hnc1 : hasCharSpecifier rest = false := by
          unfold hasCharSpecifier at hnc
          rw [if_neg hpct] at hnc
          exact hnc
        unfold renderFormat at hr
        simp only [if_neg hpct, Option.map_eq_some', Prod.mk.injEq] at hr
        obtain ⟨r, hr1, rfl, rfl⟩ := hr
        show writeFormattedLoop term (c :: (rest ++ term :: junk)) args file n = _
        unfold writeFormattedLoop
        rw [if_pos hc, if_neg hpct]
        simp only [writeChar_ok file c hm hs, if_neg (byte_ne_FILE_END c)]
        rw [ih rest junk args (appendBytes file [c]) n r.1 r.2 hlen1 hm hs htrest hnc1 (by rw [hr1]),
          appendBytes_append]
        rfl

/-- Away from `%c` the formatter keeps its contract: for every format in which
each `%` is followed by a byte and no `%c` is met, and every argument sequence
whose kinds match the `%d` and `%s` of the format in order, on a write-mode
handle whose sink never fails, `writeFormatted` writes the text the format
stands for and returns the number of `%d` and `%s`. -/
theorem writeFormatted_render_without_char (term : Byte) (fmt junk : List Byte)
    (args : List Arg) (file : File) (out : List Byte) (k : Int)
    (hm : file.mode = 'w' ∨ file.mode = 'a') (hs : file.cfile.putcLeft = none)
    (ht : term ∉ fmt) (hnc : hasCharSpecifier fmt = false)
    (hr : renderFormat term fmt args = some (out, k)) :
    writeFormatted term file (fmt ++ term :: junk) args = some (k, appendBytes file out) := by
  have hmode : ¬ (file.mode ≠ 'w' ∧ file.mode ≠ 'a') := by
    rintro ⟨h1, h2⟩
    rcases hm with h | h
    · exact h1 h
    · exact h2 h
  unfold writeFormatted
  rw [if_neg hmode,
    writeFormattedLoop_render term fmt.length fmt junk args file 0 out k (Nat.le_refl _) hm hs ht
      hnc hr,
    Int.zero_add]

/-- C11: the code falls short of the claim on the claim's own example.  For the
format `"%d-%s-%c"` with the arguments -42, `"hi"` and `'X'` the text that the
claim describes is `-42-hi-X` with the count 3 (`renderFormat`).  On a
write-mode handle whose sink never fails `writeFormatted` writes `-42-hi-` and
returns 2 for the part `"%d-%s-"` of the format, but with the `%c` behind it the
call has no defined result, and neither has it for the format `"%c"` alone: the
argument of a `%c` is read with `va_arg(valist, char)`. -/
theorem writeFormatted_char_specifier_undefined :
    renderFormat 0 [37, 100, 45, 37, 115, 45, 37, 99]
        [Arg.int (-42), Arg.str [104, 105, 0], Arg.char 88] =
      some ([45, 52, 50, 45, 104, 105, 45, 88], 3) ∧
    writeFormatted 0 writeHandle [37, 100, 45, 37, 115, 45, 0]
        [Arg.int (-42), Arg.str [104, 105, 0], Arg.char 88] =
      some (2, appendBytes writeHandle [45, 52, 50, 45, 104, 105, 45]) ∧
    writeFormatted 0 writeHandle [37, 100, 45, 37, 115, 45, 37, 99, 0]
        [Arg.int (-42), Arg.str [104, 105, 0], Arg.char 88] = none ∧
    writeFormatted 0 writeHandle [37, 99, 0] [Arg.char 88] = none := by
  exact ⟨by decide, rfl, rfl, rfl⟩

/-! ## Counting and comparing -/

theorem strNumOfOccurrences3Loop_eq (term symbol : Byte) (m : Nat) (s junk : List Byte)
    (num checked : Nat) (ht : term ∉ s) :
    strNumOfOccurrences3Loop term symbol m (s ++ term :: junk) num checked =
      some (num + (s.take (m - checked)).count symbol,
        checked + min s.length (m - checked) + 1) := by
  induction s generalizing num checked with
  | nil =>
    show strNumOfOccurrences3Loop term symbol m (term :: junk) num checked = _
    unfold strNumOfOccurrences3Loop
    rw [if_neg (by simp)]
    simp
  | cons a s ih =>
    have ha : a ≠ term := fun h => ht (h ▸ List.mem_cons_self _ _)
    have hrest : term ∉ s := fun h => ht (List.mem_cons_of_mem _ h)
    show strNumOfOccurrences3Loop term symbol m (a :: (s ++ term :: junk)) num checked = _
    unfold strNumOfOccurrences3Loop
    by_cases hlt : checked < m
    · rw [if_pos ⟨ha, hlt⟩, ih _ _ hrest]
      obtain ⟨d, hd⟩ : ∃ d, m - checked = d + 1 := ⟨m - checked - 1, by omega⟩
      have hd1 : m - (checked + 1) = d := by omega
      rw [hd, hd1, List.take_succ_cons, List.count_cons, List.length_cons]
      have hmin : min (s.length + 1) (d + 1) = min s.length d + 1 := by omega
      rw [hmin]
      by_cases hc : a = symbol
      · simp only [if_pos hc, hc, beq_self_eq_true, if_true]
        congr 2
        all_goals omega
      · have hb : (a == symbol) = false := by simpa using hc
        simp only [if_neg hc, hb]
        congr 2
        all_goals omega
    · rw [if_neg (fun h => hlt h.2)]
      have h0 : m - checked = 0 := by omega
      rw [h0]
      simp

/-- C21, as stated, fails: on `str = "ab"` with `maxSymbolsToCheck = 1` the
function returns 1 for the symbol `a` and has read two bytes, those at the
indices 0 and 1; the byte at index 1 is read by the loop test. -/
theorem strNumOfOccurrences3_reads_index_max :
    strNumOfOccurrences3 0 [97, 98, 0] 97 1 = some (1, 2) := by
  decide

/-- C21 as amended: for every string `str` of length `n` (no termination byte
inside), every symbol `c` and every `m`, `strNumOfOccurrences(str, c, m)`
returns the number of indices `i < min n m` with `str[i] = c`, and the bytes
of `str` that it reads are those at the indices `0 .. min n m`: no byte at an
index above `m`. -/
theorem strNumOfOccurrences3_counts (term : Byte) (s junk : List Byte) (c : Byte) (m : Nat)
    (ht : term ∉ s) :
    strNumOfOccurrences3 term (s ++ term :: junk) c m =
      some ((s.take (min s.length m)).count c, min s.length m + 1) ∧
    min s.length m + 1 ≤ m + 1 := by
  refine ⟨?_, by omega⟩
  unfold strNumOfOccurrences3
  rw [strNumOfOccurrences3Loop_eq term c m s junk 0 0 ht]
  have htake : s.take (min s.length m) = s.take m := by
    rcases Nat.le_total s.length m with h | h
    · rw [Nat.min_eq_left h, List.take_of_length_le h, List.take_of_length_le (Nat.le_refl _)]
    · rw [Nat.min_eq_right h]
  rw [htake]
  simp

theorem strNumOfOccurrences3_counts_witness :
    strNumOfOccurrences3 0 ([97, 98, 97] ++ 0 :: [97]) 97 2 =
      some ((([97, 98, 97] : List Byte).take (min ([97, 98, 97] : List Byte).length 2)).count 97,
        min ([97, 98, 97] : List Byte).length 2 + 1) ∧
    min ([97, 98, 97] : List Byte).length 2 + 1 ≤ 2 + 1 :=
  strNumOfOccurrences3_counts 0 [97, 98, 97] [97] 97 2 (by decide)

theorem lexLess_cons_self (a : Byte) (as bs : List Byte) :
    lexLess (a :: as) (a :: bs) = lexLess as bs := by
  simp [lexLess]

theorem lexLess_cons_ne (a b : Byte) (as bs : List Byte) (h : a ≠ b) :
    lexLess (a :: as) (b :: bs) = decide (a < b) := by
  simp [lexLess, h]

/-- C22: for strings `s1` and `s2` terminated by the zero byte, `strCompare`
returns 0 exactly when they are equal, a positive value exactly when `s2` is
below `s1` and a negative value exactly when `s1` is below `s2`, in the
lexicographic order of their unsigned bytes with a proper prefix smaller. -/
theorem strCompare_is_lexicographic (s1 s2 junk1 junk2 : List Byte) (h1 : (0 : Byte) ∉ s1)
    (h2 : (0 : Byte) ∉ s2) :
    ∃ r, strCompare 0 (s1 ++ 0 :: junk1) (s2 ++ 0 :: junk2) = some r ∧
      (r = 0 ↔ s1 = s2) ∧ (0 < r ↔ lexLess s2 s1 = true) ∧ (r < 0 ↔ lexLess s1 s2 = true) := by
  induction s1 generalizing s2 with
  | nil =>
    cases s2 with
    | nil =>
      refine ⟨0, ?_, ?_⟩
      · show strCompare 0 (0 :: junk1) (0 :: junk2) = some 0
        unfold strCompare
        rw [if_pos rfl, if_pos rfl]
      · simp [lexLess]
    | cons b bs =>
      have hb : b ≠ 0 := fun h => h2 (h ▸ List.mem_cons_self _ _)
      have hbv : b.val ≠ 0 := fun h => hb (Fin.ext h)
      refine ⟨((0 : Byte).val : Int) - (b.val : Int), ?_, ?_⟩
      · show strCompare 0 (0 :: junk1) (b :: (bs ++ 0 :: junk2)) = _
        unfold strCompare
        rw [if_neg (fun h => hb h.symm)]
      · have h0 : ((0 : Byte).val : Int) = 0 := rfl
        rw [h0]
        refine ⟨?_, ?_, ?_⟩
        · constructor
          · intro h; omega
          · intro h; simp at h
        · constructor
          · intro h; omega
          · intro h; simp [lexLess] at h
        · constructor
          · intro _; simp [lexLess]
          · intro _; omega
  | cons a as ih =>
    have ha : a ≠ 0 := fun h => h1 (h ▸ List.mem_cons_self _ _)
    have hav : a.val ≠ 0 := fun h => ha (Fin.ext h)
    have has : (0 : Byte) ∉ as := fun h => h1 (List.mem_cons_of_mem _ h)
    cases s2 with
    | nil =>
      refine ⟨(a.val : Int) - ((0 : Byte).val : Int), ?_, ?_⟩
      · show strCompare 0 (a :: (as ++ 0 :: junk1)) (0 :: junk2) = _
        unfold strCompare
        rw [if_neg ha]
      · have h0 : ((0 : Byte).val : Int) = 0 := rfl
        rw [h0]
        refine ⟨?_, ?_, ?_⟩
        · constructor
          · intro h; omega
          · intro h; simp at h
        · constructor
          · intro _; simp [lexLess]
          · intro _; omega
        · constructor
          · intro h; omega
          · intro h; simp [lexLess] at h
    | cons b bs =>
      have hbs : (0 : Byte) ∉ bs := fun h => h2 (List.mem_cons_of_mem _ h)
      by_cases hab : a = b
      · subst hab
        obtain ⟨r, hr, hr0, hrpos, hrneg⟩ := ih bs has hbs
        refine ⟨r, ?_, ?_, ?_, ?_⟩
        · show strCompare 0 (a :: (as ++ 0 :: junk1)) (a :: (bs ++ 0 :: junk2)) = _
          unfold strCompare
          rw [if_pos rfl, if_neg ha]
          exact hr
        · rw [hr0]
          simp
        · rw [hrpos, lexLess_cons_self]
        · rw [hrneg, lexLess_cons_self]
      · have hv : a.val ≠ b.val := fun h => hab (Fin.ext h)
        refine ⟨(a.val : Int) - (b.val : Int), ?_, ?_, ?_, ?_⟩
        · show strCompare 0 (a :: (as ++ 0 :: junk1)) (b :: (bs ++ 0 :: junk2)) = _
          unfold strCompare
          rw [if_neg hab]
        · constructor
          · intro h; omega
          · intro h
            exact absurd (List.cons.inj h).1 hab
        · rw [lexLess_cons_ne b a bs as (fun h => hab h.symm), decide_eq_true_iff, Fin.lt_def]
          omega
        · rw [lexLess_cons_ne a b as bs hab, decide_eq_true_iff, Fin.lt_def]
          omega

theorem strCompare_is_lexicographic_witness :
    ∃ r, strCompare 0 ([97, 98] ++ 0 :: []) ([97, 98, 99] ++ 0 :: []) = some r ∧
      (r = 0 ↔ ([97, 98] : List Byte) = [97, 98, 99]) ∧
      (0 < r ↔ lexLess [97, 98, 99] [97, 98] = true) ∧
      (r < 0 ↔ lexLess [97, 98] [97, 98, 99] = true) :=
  strCompare_is_lexicographic [97, 98] [97, 98, 99] [] [] (by decide) (by decide)

/-! ## Wrong mode, termination of `nextChar`, and the stream after a failed line -/

theorem not_write_mode_of_read (f : File) (hm : f.mode = 'r') :
    f.mode ≠ 'w' ∧ f.mode ≠ 'a' := by
  rw [hm]
  exact ⟨by decide, by decide⟩

theorem not_read_mode_of_write (f : File) (hm : f.mode = 'w' ∨ f.mode = 'a') :
    f.mode ≠ 'r' := by
  rcases hm with h | h <;> rw [h] <;> decide

/-- C24: on a handle in Write or Append mode, `nextChar` returns `FILE_END`,
`nextLine` returns `NULL` and `updateBuffer` returns `UPDATE_BUFFER_DENIED`,
each leaving the whole handle (buffer, position, correctBufferValues,
fileEndReached, and the stream with its count of `fread` calls) and the
caller's line buffer unchanged; on a handle in Read mode, `writeChar`,
`writeString` and `writeLine` return `FILE_END` and `writeFormatted` returns
-1, each leaving the whole handle (the sink and its count of `putc` calls
included) unchanged. -/
theorem wrong_mode_is_refused (term : Byte) (f : File) :
    ((f.mode = 'w' ∨ f.mode = 'a') →
      nextChar f = (FILE_END, f) ∧
      (∀ (line : List Byte) (maxLength : Nat),
        nextLine term f line maxLength = { ret := false, file := f, line := line }) ∧
      updateBuffer f = (UPDATE_BUFFER_DENIED, f)) ∧
    (f.mode = 'r' →
      (∀ ch, writeChar f ch = (FILE_END, f)) ∧
      (∀ str, writeString term f str = some (FILE_END, f)) ∧
      (∀ line, writeLine term f line = some (FILE_END, f)) ∧
      (∀ str args, writeFormatted term f str args = some (-1, f))) := by
  constructor
  · intro hm
    have hnr := not_read_mode_of_write f hm
    refine ⟨nextChar_wrong_mode f hnr, ?_, updateBuffer_denied f (Or.inl hnr)⟩
    intro line maxLength
    unfold nextLine
    rw [if_pos (Or.inr hnr)]
  · intro hm
    have hnw := not_write_mode_of_read f hm
    refine ⟨?_, ?_, ?_, ?_⟩
    · intro ch
      unfold writeChar
      rw [if_pos hnw]
    · intro str
      unfold writeString
      rw [if_pos hnw]
    · intro line
      unfold writeLine
      rw [if_pos hnw]
    · intro str args
      unfold writeFormatted
      rw [if_pos hnw]

theorem wrong_mode_is_refused_witness :
    nextChar writeHandle = (FILE_END, writeHandle) ∧
    updateBuffer writeHandle = (UPDATE_BUFFER_DENIED, writeHandle) ∧
    writeChar (readHandle [97]) 98 = (FILE_END, readHandle [97]) ∧
    writeFormatted 0 (readHandle [97]) [37, 99, 0] [Arg.char 98] = some (-1, readHandle [97]) :=
  ⟨((wrong_mode_is_refused 0 writeHandle).1 (Or.inl rfl)).1,
    ((wrong_mode_is_refused 0 writeHandle).1 (Or.inl rfl)).2.2,
    ((wrong_mode_is_refused 0 (readHandle [97])).2 rfl).1 98,
    ((wrong_mode_is_refused 0 (readHandle [97])).2 rfl).2.2.2 [37, 99, 0] [Arg.char 98]⟩

theorem nextChar_flat_facts (f : File) (hm : f.mode = 'r')
    (h : f.position < f.correctBufferValues ∨ f.position ≠ BUFFER_SIZE) :
    (∀ n, nextCharFuel (n + 1) f = some (nextChar f)) ∧ (nextChar f).2.cfile = f.cfile := by
  have hflat : f.mode ≠ 'r' ∨ f.position < f.correctBufferValues ∨ f.position ≠ BUFFER_SIZE :=
    Or.inr h
  constructor
  · intro n
    rw [← nextCharFuel_total 0 f, nextCharFuel_flat n f hflat, nextCharFuel_flat 1 f hflat]
  · by_cases h1 : f.position < f.correctBufferValues
    · rw [nextChar_buffered f hm h1]
    · have h2 : f.position ≠ BUFFER_SIZE := by
        rcases h with h | h
        · exact absurd h h1
        · exact h
      rw [nextChar_latch f hm h1 h2]

/-- C25: a call of `nextChar` on a Read-mode handle returns (for every bound of
at least one self-call, whatever the position), after at most one `fread`.
Either it returns without calling itself and without a refill; or, with the
buffer used up (`position = BUFFER_SIZE`), it cannot return without calling
itself, it refills once, `updateBuffer` sets `position` to 0, and the one
self-call on the refilled handle returns without calling itself again and
without another refill. -/
theorem nextChar_terminates_after_one_refill (f : File) (hm : f.mode = 'r') :
    (∀ n, nextCharFuel (n + 2) f = some (nextChar f)) ∧
    (nextChar f).2.cfile.freads ≤ f.cfile.freads + 1 ∧
    ((f.position < f.correctBufferValues ∨ f.position ≠ BUFFER_SIZE) →
      (∀ n, nextCharFuel (n + 1) f = some (nextChar f)) ∧ (nextChar f).2.cfile = f.cfile) ∧
    ((¬ f.position < f.correctBufferValues ∧ f.position = BUFFER_SIZE) →
      nextCharFuel 1 f = none ∧
      (updateBuffer f).2.position = 0 ∧
      (updateBuffer f).2.cfile.freads = f.cfile.freads + 1 ∧
      (∀ n, nextCharFuel (n + 1) (updateBuffer f).2 = some (nextChar f)) ∧
      (nextChar f).2.cfile = (updateBuffer f).2.cfile) := by
  have hflat := nextChar_flat_facts f hm
  have hrefill : (¬ f.position < f.correctBufferValues ∧ f.position = BUFFER_SIZE) →
      nextCharFuel 1 f = none ∧
      (updateBuffer f).2.position = 0 ∧
      (updateBuffer f).2.cfile.freads = f.cfile.freads + 1 ∧
      (∀ n, nextCharFuel (n + 1) (updateBuffer f).2 = some (nextChar f)) ∧
      (nextChar f).2.cfile = (updateBuffer f).2.cfile := by
    rintro ⟨h1, h2⟩
    have hg := updateBuffer_position f hm h2
    have h0 : (updateBuffer f).2.position ≠ BUFFER_SIZE := by
      rw [hg.1]; decide
    have hgflat := nextChar_flat_facts (updateBuffer f).2 hg.2 (Or.inr h0)
    rw [nextChar_refill f hm h1 h2]
    refine ⟨?_, hg.1, ?_, hgflat.1, hgflat.2⟩
    · unfold nextCharFuel
      rw [if_neg (by simpa using hm), if_neg h1, if_pos h2]
      rfl
    · rw [updateBuffer_refill f hm (by omega)]
      rfl
  refine ⟨fun n => nextCharFuel_total n f, ?_, hflat, hrefill⟩
  by_cases h : f.position < f.correctBufferValues ∨ f.position ≠ BUFFER_SIZE
  · rw [(hflat h).2]
    omega
  · simp only [not_or, not_not] at h
    obtain ⟨-, -, h3, -, h5⟩ := hrefill h
    rw [h5, h3]

theorem nextChar_terminates_after_one_refill_witness :
    (readHandle [97]).mode = 'r' ∧
    nextCharFuel 1 (readHandle [97]) = none ∧
    nextCharFuel 2 (readHandle [97]) = some (nextChar (readHandle [97])) ∧
    (nextChar (readHandle [97])).2.cfile.freads ≤ (readHandle [97]).cfile.freads + 1 :=
  ⟨rfl,
    ((nextChar_terminates_after_one_refill (readHandle [97]) rfl).2.2.2 (by decide)).1,
    (nextChar_terminates_after_one_refill (readHandle [97]) rfl).1 0,
    (nextChar_terminates_after_one_refill (readHandle [97]) rfl).2.1⟩

/-- C26, the code on the format `"a%"`, whose last character is a `%`: with
the bytes `X`, 0 behind the format in memory, `writeFormatted` writes `a`,
`%`, the termination byte of the format and `X`; with `Y` in the place of `X`
it writes `Y`.  The scan has gone past the termination byte, has written it,
and has read the byte behind it. -/
theorem writeFormatted_scans_past_marker :
    writeFormatted 0 writeHandle [97, 37, 0, 88, 0] [] =
      some (0, appendBytes writeHandle [97, 37, 0, 88]) ∧
    writeFormatted 0 writeHandle [97, 37, 0, 89, 0] [] =
      some (0, appendBytes writeHandle [97, 37, 0, 89]) ∧
    (appendBytes writeHandle [97, 37, 0, 88]).cfile.content = [97, 37, 0, 88] :=
  ⟨rfl, rfl, rfl⟩

/-- C27: for every capacity of at least 1 and every reachable, unlatched Read
handle whose next `capacity - 1` unread bytes exist and hold no newline, the
`nextLine` call fails and has consumed exactly those `capacity - 1` bytes: the
unread input of the handle afterwards is what followed them, and the next
`nextChar` returns the byte at offset `capacity - 1` of the former unread
input (`FILE_END` if there is none). -/
theorem nextLine_failure_consumes_bytes (term : Byte) (capacity : Nat) (f : File)
    (line pre rest : List Byte) (hcap : 1 ≤ capacity) (hr : Reachable f)
    (hm : f.mode = 'r') (hz : f.fileEndReached = 0) (hp : pending f = pre ++ rest)
    (hlen : pre.length = capacity - 1) (hnl : (10 : Byte) ∉ pre) :
    (nextLine term f line capacity).ret = false ∧
    pending (nextLine term f line capacity).file = rest ∧
    (∀ b rest1, rest = b :: rest1 →
      (nextChar (nextLine term f line capacity).file).1 = (b.val : Int)) ∧
    (rest = [] → (nextChar (nextLine term f line capacity).file).1 = FILE_END) := by
  obtain ⟨g, hg, hpg, hIg, hmg, -⟩ := nextLineLoop_long term pre rest 0 f line hm
    (reachable_reachInv f hr).1 hz hp (fun b hb hb10 => hnl (hb10 ▸ hb))
  rw [nextLine_enter term f line capacity hcap hm hz, ← hlen, hg]
  refine ⟨rfl, hpg, ?_, ?_⟩
  · intro b rest1 hrest
    exact (nextChar_cons g hmg hIg b rest1 (by rw [hpg, hrest])).1
  · intro hrest
    exact (nextChar_nil g hmg hIg (by rw [hpg, hrest])).1

theorem nextLine_failure_consumes_bytes_witness :
    (nextLine 0 (readHandle [97, 98, 99, 100, 101, 102, 10]) [7, 7, 7] 3).ret = false ∧
    pending (nextLine 0 (readHandle [97, 98, 99, 100, 101, 102, 10]) [7, 7, 7] 3).file =
      [99, 100, 101, 102, 10] ∧
    (nextChar (nextLine 0 (readHandle [97, 98, 99, 100, 101, 102, 10]) [7, 7, 7] 3).file).1 =
      99 :=
  ⟨(nextLine_failure_consumes_bytes 0 3 _ [7, 7, 7] [97, 98] [99, 100, 101, 102, 10] (by decide)
      (Reachable.opened (some [97, 98, 99, 100, 101, 102, 10]) 'r' _ rfl) rfl rfl
      (readHandle_pending _) rfl (by decide)).1,
    (nextLine_failure_consumes_bytes 0 3 _ [7, 7, 7] [97, 98] [99, 100, 101, 102, 10] (by decide)
      (Reachable.opened (some [97, 98, 99, 100, 101, 102, 10]) 'r' _ rfl) rfl rfl
      (readHandle_pending _) rfl (by decide)).2.1,
    (nextLine_failure_consumes_bytes 0 3 _ [7, 7, 7] [97, 98] [99, 100, 101, 102, 10] (by decide)
      (Reachable.opened (some [97, 98, 99, 100, 101, 102, 10]) 'r' _ rfl) rfl rfl
      (readHandle_pending _) rfl (by decide)).2.2.1 99 [100, 101, 102, 10] rfl⟩

/-! ## Failing sinks -/

theorem writeChar_mode (file : File) (b : Byte) : (writeChar file b).2.mode = file.mode := by
  unfold writeChar
  split_ifs <;> rfl

theorem pushBytes_cons (file : File) (b : Byte) (bs : List Byte) :
    pushBytes file (b :: bs) =
      if (writeChar file b).1 = FILE_END then (false, (writeChar file b).2)
      else pushBytes (writeChar file b).2 bs := by
  rfl

theorem pushBytes_mode (file : File) (bs : List Byte) :
    (pushBytes file bs).2.mode = file.mode := by
  induction bs generalizing file with
  | nil => rfl
  | cons b bs ih =>
    rw [pushBytes_cons]
    split_ifs
    · exact writeChar_mode file b
    · rw [ih, writeChar_mode]

theorem pushBytes_append (file : File) (as bs : List Byte) :
    pushBytes file (as ++ bs) =
      if (pushBytes file as).1 then pushBytes (pushBytes file as).2 bs
      else (false, (pushBytes file as).2) := by
  induction as generalizing file with
  | nil => simp [pushBytes]
  | cons a as ih =>
    rw [List.cons_append, pushBytes_cons, pushBytes_cons]
    split_ifs with h1 h2 h3
    · simp at h2
    · rfl
    · rw [ih, if_pos h3]
    · rw [ih, if_neg h3]

theorem pushBytes_never_failing (file : File) (bs : List Byte)
    (hm : file.mode = 'w' ∨ file.mode = 'a') (hs : file.cfile.putcLeft = none) :
    pushBytes file bs = (true, appendBytes file bs) := by
  induction bs generalizing file with
  | nil => rw [appendBytes_nil]; rfl
  | cons b bs ih =>
    rw [pushBytes_cons, writeChar_ok file b hm hs, if_neg (byte_ne_FILE_END b),
      ih (appendBytes file [b]) hm hs, appendBytes_append]
    rfl

theorem neverFailing_writeChar (file : File) (b : Byte)
    (hm : file.mode = 'w' ∨ file.mode = 'a') (hok : (writeChar file b).1 ≠ FILE_END) :
    neverFailing (writeChar file b).2 = appendBytes (neverFailing file) [b] := by
  have hmode : ¬ (file.mode ≠ 'w' ∧ file.mode ≠ 'a') := by
    rintro ⟨h1, h2⟩
    rcases hm with h | h
    · exact h1 h
    · exact h2 h
  unfold writeChar at hok ⊢
  rw [if_neg hmode] at hok ⊢
  have hb := byte_ne_FILE_END b
  unfold FILE_END at hb hok
  cases hleft : file.cfile.putcLeft with
  | none => simp [putc, hleft, neverFailing, appendBytes]
  | some j =>
    cases j with
    | zero =>
      exfalso
      apply hok
      simp only [putc, hleft]
      rw [if_neg (fun h => hb h.symm)]
    | succ j => simp [putc, hleft, neverFailing, appendBytes]

theorem neverFailing_pushBytes (file : File) (bs : List Byte)
    (hm : file.mode = 'w' ∨ file.mode = 'a') (hok : (pushBytes file bs).1 = true) :
    neverFailing (pushBytes file bs).2 = appendBytes (neverFailing file) bs := by
  induction bs generalizing file with
  | nil => rw [appendBytes_nil]; rfl
  | cons b bs ih =>
    rw [pushBytes_cons] at hok ⊢
    by_cases h : (writeChar file b).1 = FILE_END
    · rw [if_pos h] at hok
      simp at hok
    · rw [if_neg h] at hok ⊢
      rw [ih (writeChar file b).2 (by rw [writeChar_mode]; exact hm) hok,
        neverFailing_writeChar file b hm h, appendBytes_append]
      rfl

theorem appendBytes_cancel (file : File) (as bs : List Byte)
    (h : appendBytes file as = appendBytes file bs) : as = bs := by
  have hc : (appendBytes file as).cfile.content = (appendBytes file bs).cfile.content := by
    rw [h]
  exact List.append_cancel_left hc

theorem neverFailing_idem (file : File) : neverFailing (neverFailing file) = neverFailing file :=
  rfl

theorem neverFailing_appendBytes (file : File) (bs : List Byte) :
    neverFailing (appendBytes (neverFailing file) bs) = appendBytes (neverFailing file) bs :=
  rfl

theorem neverFailing_mode (file : File) : (neverFailing file).mode = file.mode :=
  rfl

theorem neverFailing_sink (file : File) : (neverFailing file).cfile.putcLeft = none :=
  rfl

/-- On any sink, `writeString` is the run of `writeChar` calls for the bytes of
the string that stops at the first failure. -/
theorem writeStringLoop_push (term : Byte) (s : List Byte) (file : File)
    (hm : file.mode = 'w' ∨ file.mode = 'a') (ht : term ∈ s) :
    writeStringLoop term s file =
      some (if (pushBytes file (cstr term s)).1 then 0 else FILE_END,
        (pushBytes file (cstr term s)).2) := by
  induction s generalizing file with
  | nil => simp at ht
  | cons c s ih =>
    unfold writeStringLoop
    by_cases hc : c ≠ term
    · have hcs : cstr term (c :: s) = c :: cstr term s := by
        simp [cstr, List.takeWhile_cons, hc]
      rw [if_pos hc, hcs, pushBytes_cons]
      by_cases hf : (writeChar file c).1 = FILE_END
      · simp only [if_pos hf]
        simp
      · have hts : term ∈ s := by
          rcases List.mem_cons.mp ht with h | h
          · exact absurd h.symm hc
          · exact h
        simp only [if_neg hf]
        exact ih (writeChar file c).2 (by rw [writeChar_mode]; exact hm) hts
    · rw [if_neg hc]
      simp only [not_not] at hc
      have hcs : cstr term (c :: s) = [] := by
        simp [cstr, List.takeWhile_cons, hc]
      rw [hcs]
      rfl

theorem writeString_push (term : Byte) (s : List Byte) (file : File)
    (hm : file.mode = 'w' ∨ file.mode = 'a') (ht : term ∈ s) :
    writeString term file s =
      some (if (pushBytes file (cstr term s)).1 then 0 else FILE_END,
        (pushBytes file (cstr term s)).2) := by
  have hmode : ¬ (file.mode ≠ 'w' ∧ file.mode ≠ 'a') := by
    rintro ⟨h1, h2⟩
    rcases hm with h | h
    · exact h1 h
    · exact h2 h
  unfold writeString
  rw [if_neg hmode]
  exact writeStringLoop_push term s file hm ht

/-- On any sink, `writeLine` is the run of `writeChar` calls for the bytes of
the line and the newline that stops at the first failure. -/
theorem writeLineLoop_push (term : Byte) (s : List Byte) (file : File)
    (hm : file.mode = 'w' ∨ file.mode = 'a') (ht : term ∈ s) :
    writeLineLoop term s file =
      some (if (pushBytes file (cstr term s ++ [10])).1 then 0 else FILE_END,
        (pushBytes file (cstr term s ++ [10])).2) := by
  induction s generalizing file with
  | nil => simp at ht
  | cons c s ih =>
    unfold writeLineLoop
    by_cases hc : c ≠ term
    · have hcs : cstr term (c :: s) = c :: cstr term s := by
        simp [cstr, List.takeWhile_cons, hc]
      rw [if_pos hc, hcs, List.cons_append, pushBytes_cons]
      by_cases hf : (writeChar file c).1 = FILE_END
      · simp only [if_pos hf]
        simp
      · have hts : term ∈ s := by
          rcases List.mem_cons.mp ht with h | h
          · exact absurd h.symm hc
          · exact h
        simp only [if_neg hf]
        exact ih (writeChar file c).2 (by rw [writeChar_mode]; exact hm) hts
    · rw [if_neg hc]
      simp only [not_not] at hc
      have hcs : cstr term (c :: s) = [] := by
        simp [cstr, List.takeWhile_cons, hc]
      rw [hcs, List.nil_append, pushBytes_cons]
      by_cases hf : (writeChar file 10).1 = FILE_END
      · simp only [if_pos hf]
        simp
      · simp only [if_neg hf]
        simp [pushBytes]

theorem writeLine_push (term : Byte) (s : List Byte) (file : File)
    (hm : file.mode = 'w' ∨ file.mode = 'a') (ht : term ∈ s) :
    writeLine term file s =
      some (if (pushBytes file (cstr term s ++ [10])).1 then 0 else FILE_END,
        (pushBytes file (cstr term s ++ [10])).2) := by
  have hmode : ¬ (file.mode ≠ 'w' ∧ file.mode ≠ 'a') := by
    rintro ⟨h1, h2⟩
    rcases hm with h | h
    · exact h1 h
    · exact h2 h
  unfold writeLine
  rw [if_neg hmode]
  exact writeLineLoop_push term s file hm ht

theorem writeStringLoop_unterminated (term : Byte) (s : List Byte) (file : File)
    (hm : file.mode = 'w' ∨ file.mode = 'a') (hs : file.cfile.putcLeft = none)
    (ht : term ∉ s) : writeStringLoop term s file = none := by
  induction s generalizing file with
  | nil => rfl
  | cons c s ih =>
    have hc : c ≠ term := fun h => ht (h ▸ List.mem_cons_self _ _)
    unfold writeStringLoop
    rw [if_pos hc, writeChar_ok file c hm hs]
    simp only [if_neg (byte_ne_FILE_END c)]
    exact ih (appendBytes file [c]) hm hs (fun h => ht (List.mem_cons_of_mem _ h))

/-- A step of a writer: the bytes `b` are written by a run that stops at the
first failure, a failure ends the writer with -1, and otherwise the writer goes
on as `K`.  If `K` relates the run on any sink to the run on the sink that
never fails, so does the step. -/
theorem push_then (file : File) (b : List Byte) (K : File → Option (Int × File)) (r : Int)
    (ideal : File) (hm : file.mode = 'w' ∨ file.mode = 'a')
    (hideal : K (appendBytes (neverFailing file) b) = some (r, ideal))
    (hK : ∀ file1 : File, (file1.mode = 'w' ∨ file1.mode = 'a') →
      K (neverFailing file1) = some (r, ideal) →
      ∃ out1, ideal = appendBytes (neverFailing file1) out1 ∧
        K file1 = some (if (pushBytes file1 out1).1 then r else -1, (pushBytes file1 out1).2)) :
    ∃ out, ideal = appendBytes (neverFailing file) out ∧
      (if (pushBytes file b).1 then K (pushBytes file b).2
        else some (-1, (pushBytes file b).2)) =
        some (if (pushBytes file out).1 then r else -1, (pushBytes file out).2) := by
  by_cases hok : (pushBytes file b).1 = true
  · have hnf := neverFailing_pushBytes file b hm hok
    obtain ⟨out1, h1, h2⟩ := hK (pushBytes file b).2 (by rw [pushBytes_mode]; exact hm)
      (by rw [hnf]; exact hideal)
    refine ⟨b ++ out1, ?_, ?_⟩
    · rw [h1, hnf, appendBytes_append]
    · rw [if_pos hok, h2, pushBytes_append, if_pos hok]
  · obtain ⟨out1, h1, -⟩ := hK (appendBytes (neverFailing file) b) hm
      (by rw [neverFailing_appendBytes]; exact hideal)
    refine ⟨b ++ out1, ?_, ?_⟩
    · rw [h1, neverFailing_appendBytes, appendBytes_append]
    · rw [if_neg hok, pushBytes_append, if_neg hok]
      simp

theorem pushBytes_single (file : File) (c : Byte) :
    pushBytes file [c] =
      if (writeChar file c).1 = FILE_END then (false, (writeChar file c).2)
      else (true, (writeChar file c).2) := by
  rfl

theorem pushBytes_pair (file : File) (c d : Byte) :
    pushBytes file [c, d] =
      if (writeChar file c).1 = FILE_END then (false, (writeChar file c).2)
      else if (writeChar (writeChar file c).2 d).1 = FILE_END then
        (false, (writeChar (writeChar file c).2 d).2)
      else (true, (writeChar (writeChar file c).2 d).2) := by
  rfl

/-- The scan loop of `writeFormatted` on any sink against the same scan on the
sink that never fails: whenever the latter returns, what it has written is a
list of bytes `out`, and the former is the run of `writeChar` calls for `out`
that stops at the first failure, with -1 in the place of the count when it
stopped. -/
theorem writeFormattedLoop_push (term : Byte) (m : Nat) :
    ∀ (mem : List Byte) (args : List Arg) (file : File) (n r : Int) (ideal : File),
      mem.length ≤ m → (file.mode = 'w' ∨ file.mode = 'a') →
      writeFormattedLoop term mem args (neverFailing file) n = some (r, ideal) →
      ∃ out, ideal = appendBytes (neverFailing file) out ∧
        writeFormattedLoop term mem args file n =
          some (if (pushBytes file out).1 then r else -1, (pushBytes file out).2) := by
  induction m with
  | zero =>
    intro mem args file n r ideal hlen hm hideal
    obtain rfl : mem = [] := List.eq_nil_of_length_eq_zero (by omega)
    simp [writeFormattedLoop] at hideal
  | succ m ih =>
    intro mem args file n r ideal hlen hm hideal
    cases mem with
    | nil => simp [writeFormattedLoop] at hideal
    | cons c rest =>
      have hlen1 : rest.length ≤ m := by
        rw [List.length_cons] at hlen
        omega
      by_cases hc : c ≠ term
      · by_cases hpct : c = 37
        · subst hpct
          cases rest with
          | nil =>
            unfold writeFormattedLoop at hideal
            rw [if_pos hc, if_pos rfl] at hideal
            simp at hideal
          | cons x rest1 =>
            have hlen2 : rest1.length ≤ m := by
              rw [List.length_cons] at hlen1
              omega
            by_cases hx99 : x = 99
            · subst hx99
              unfold writeFormattedLoop at hideal
              rw [if_pos hc, if_pos rfl] at hideal
              simp at hideal
            · by_cases hx100 : x = 100
              · subst hx100
                cases args with
                | nil =>
                  unfold writeFormattedLoop at hideal
                  rw [if_pos hc, if_pos rfl] at hideal
                  simp at hideal
                | cons a args1 =>
                  cases a with
                  | char a =>
                    unfold writeFormattedLoop at hideal
                    rw [if_pos hc, if_pos rfl] at hideal
                    simp at hideal
                  | int v =>
                    obtain ⟨hmem, hcstr⟩ := convertedToStr_eq term v
                    have hbranch : ∀ g : File, (g.mode = 'w' ∨ g.mode = 'a') →
                        writeFormattedLoop term (37 :: 100 :: rest1) (Arg.int v :: args1) g n =
                          if (pushBytes g (intToStrText term v)).1 then
                            writeFormattedLoop term rest1 args1
                              (pushBytes g (intToStrText term v)).2 (n + 1)
                          else some (-1, (pushBytes g (intToStrText term v)).2) := by
                      intro g hg
                      conv_lhs => unfold writeFormattedLoop
                      rw [if_pos hc, if_pos rfl]
                      simp only [if_true, if_neg hx99, writeString_push term _ g hg hmem, hcstr]
                      by_cases hf : (pushBytes g (intToStrText term v)).1 = true
                      · simp [hf, FILE_END]
                      · simp [hf, FILE_END]
                    rw [hbranch (neverFailing file) hm, pushBytes_never_failing (neverFailing file) _ hm rfl] at hideal
                    rw [hbranch file hm]
                    exact push_then file (intToStrText term v)
                      (fun g => writeFormattedLoop term rest1 args1 g (n + 1)) r ideal hm
                      (by simpa using hideal)
                      (fun file1 hm1 h1 => ih rest1 args1 file1 (n + 1) r ideal hlen2 hm1 h1)
                  | str s =>
                    unfold writeFormattedLoop at hideal
                    rw [if_pos hc, if_pos rfl] at hideal
                    simp at hideal
              · by_cases hx115 : x = 115
                · subst hx115
                  cases args with
                  | nil =>
                    unfold writeFormattedLoop at hideal
                    rw [if_pos hc, if_pos rfl] at hideal
                    simp at hideal
                  | cons a args1 =>
                    cases a with
                    | char a =>
                      unfold writeFormattedLoop at hideal
                      rw [if_pos hc, if_pos rfl] at hideal
                      simp at hideal
                    | int v =>
                      unfold writeFormattedLoop at hideal
                      rw [if_pos hc, if_pos rfl] at hideal
                      simp at hideal
                    | str s =>
                      by_cases hmem : term ∈ s
                      · have hbranch : ∀ g : File, (g.mode = 'w' ∨ g.mode = 'a') →
                            writeFormattedLoop term (37 :: 115 :: rest1) (Arg.str s :: args1) g n =
                              if (pushBytes g (cstr term s)).1 then
                                writeFormattedLoop term rest1 args1
                                  (pushBytes g (cstr term s)).2 (n + 1)
                              else some (-1, (pushBytes g (cstr term s)).2) := by
                          intro g hg
                          conv_lhs => unfold writeFormattedLoop
                          rw [if_pos hc, if_pos rfl]
                          simp only [if_true, if_neg hx99, if_neg hx100,
                            writeString_push term _ g hg hmem]
                          by_cases hf : (pushBytes g (cstr term s)).1 = true
                          · simp [hf, FILE_END]
                          · simp [hf, FILE_END]
                        rw [hbranch (neverFailing file) hm, pushBytes_never_failing (neverFailing file) _ hm rfl] at hideal
                        rw [hbranch file hm]
                        exact push_then file (cstr term s)
                          (fun g => writeFormattedLoop term rest1 args1 g (n + 1)) r ideal hm
                          (by simpa using hideal)
                          (fun file1 hm1 h1 => ih rest1 args1 file1 (n + 1) r ideal hlen2 hm1 h1)
                      · exfalso
                        have hnone : writeString term (neverFailing file) s = none := by
                          unfold writeString
                          rw [if_neg (by
                            rintro ⟨h1, h2⟩
                            rcases hm with h | h
                            · exact h1 h
                            · exact h2 h)]
                          exact writeStringLoop_unterminated term s _ hm rfl hmem
                        unfold writeFormattedLoop at hideal
                        rw [if_pos hc, if_pos rfl] at hideal
                        simp only [if_true, if_neg hx99, if_neg hx100, hnone] at hideal
                        simp at hideal
                · have hbranch : ∀ g : File,
                      writeFormattedLoop term (37 :: x :: rest1) args g n =
                        if (pushBytes g [37, x]).1 then
                          writeFormattedLoop term rest1 args (pushBytes g [37, x]).2 n
                        else some (-1, (pushBytes g [37, x]).2) := by
                    intro g
                    conv_lhs => unfold writeFormattedLoop
                    rw [if_pos hc, if_pos rfl, pushBytes_pair]
                    simp only [if_neg hx99, if_neg hx100, if_neg hx115]
                    by_cases hf : (writeChar g 37).1 = FILE_END
                    · simp [hf]
                    · by_cases hf2 : (writeChar (writeChar g 37).2 x).1 = FILE_END
                      · simp [hf, hf2]
                      · simp [hf, hf2]
                  rw [hbranch, pushBytes_never_failing (neverFailing file) _ hm rfl] at hideal
                  rw [hbranch]
                  exact push_then file [37, x]
                    (fun g => writeFormattedLoop term rest1 args g n) r ideal hm
                    (by simpa using hideal)
                    (fun file1 hm1 h1 => ih rest1 args file1 n r ideal hlen2 hm1 h1)
        · have hbranch : ∀ g : File,
              writeFormattedLoop term (c :: rest) args g n =
                if (pushBytes g [c]).1 then
                  writeFormattedLoop term rest args (pushBytes g [c]).2 n
                else some (-1, (pushBytes g [c]).2) := by
            intro g
            conv_lhs => unfold writeFormattedLoop
            rw [if_pos hc, if_neg hpct, pushBytes_single]
            by_cases hf : (writeChar g c).1 = FILE_END
            · simp [hf]
            · simp [hf]
          rw [hbranch, pushBytes_never_failing (neverFailing file) _ hm rfl] at hideal
          rw [hbranch]
          exact push_then file [c]
            (fun g => writeFormattedLoop term rest args g n) r ideal hm
            (by simpa using hideal)
            (fun file1 hm1 h1 => ih rest args file1 n r ideal hlen1 hm1 h1)
      · simp only [not_not] at hc
        subst hc
        rw [writeFormattedLoop_at_term] at hideal ⊢
        obtain ⟨rfl, rfl⟩ := Prod.mk.inj (Option.some.inj hideal)
        exact ⟨[], (appendBytes_nil _).symm, rfl⟩

/-- On a write-mode handle whose sink never fails the scan loop has no defined
result on any format in which a `%c` is met. -/
theorem writeFormattedLoop_char_undefined (term : Byte) (m : Nat) :
    ∀ (fmt junk : List Byte) (args : List Arg) (file : File) (n : Int),
      fmt.length ≤ m → (file.mode = 'w' ∨ file.mode = 'a') →
      file.cfile.putcLeft = none → term ∉ fmt → hasCharSpecifier fmt = true →
      writeFormattedLoop term (fmt ++ term :: junk) args file n = none := by
  induction m with
  | zero =>
    intro fmt junk args file n hlen hm hs ht hnc
    obtain rfl : fmt = [] := List.eq_nil_of_length_eq_zero (by omega)
    simp [hasCharSpecifier] at hnc
  | succ m ih =>
    intro fmt junk args file n hlen hm hs ht hnc
    cases fmt with
    | nil => simp [hasCharSpecifier] at hnc
    | cons c rest =>
      have hc : c ≠ term := fun h => ht (h ▸ List.mem_cons_self _ _)
      have htrest : term ∉ rest := fun h => ht (List.mem_cons_of_mem _ h)
      have hlen1 : rest.length ≤ m := by
        rw [List.length_cons] at hlen
        omega
      by_cases hpct : c = 37
      · subst hpct
        cases rest with
        | nil => simp [hasCharSpecifier] at hnc
        | cons x rest1 =>
          have htrest1 : term ∉ rest1 := fun h => htrest (List.mem_cons_of_mem _ h)
          have hlen2 : rest1.length ≤ m := by
            rw [List.length_cons] at hlen1
            omega
          show writeFormattedLoop term (37 :: x :: (rest1 ++ term :: junk)) args file n = none
          by_cases hx99 : x = 99
          · subst hx99
            unfold writeFormattedLoop
            rw [if_pos hc, if_pos rfl]
            simp
          · have hnc1 : hasCharSpecifier rest1 = true := by
              simpa [hasCharSpecifier, hx99] using hnc
            by_cases hx100 : x = 100
            · subst hx100
              cases args with
              | nil =>
                unfold writeFormattedLoop
                rw [if_pos hc, if_pos rfl]
                simp
              | cons a args1 =>
                cases a with
                | char a =>
                  unfold writeFormattedLoop
                  rw [if_pos hc, if_pos rfl]
                  simp
                | int v =>
                  obtain ⟨hmem, hcstr⟩ := convertedToStr_eq term v
                  unfold writeFormattedLoop
                  rw [if_pos hc, if_pos rfl]
                  simp only [if_true, if_neg hx99, writeString_ok term _ file hm hs hmem, hcstr]
                  rw [if_neg (by decide)]
                  exact ih rest1 junk args1 (appendBytes file (intToStrText term v)) (n + 1)
                    hlen2 hm hs htrest1 hnc1
                | str s =>
                  unfold writeFormattedLoop
                  rw [if_pos hc, if_pos rfl]
                  simp
            · by_cases hx115 : x = 115
              · subst hx115
                cases args with
                | nil =>
                  unfold writeFormattedLoop
                  rw [if_pos hc, if_pos rfl]
                  simp
                | cons a args1 =>
                  cases a with
                  | char a =>
                    unfold writeFormattedLoop
                    rw [if_pos hc, if_pos rfl]
                    simp
                  | int v =>
                    unfold writeFormattedLoop
                    rw [if_pos hc, if_pos rfl]
                    simp
                  | str s =>
                    by_cases hmem : term ∈ s
                    · unfold writeFormattedLoop
                      rw [if_pos hc, if_pos rfl]
                      simp only [if_true, if_neg hx99, if_neg hx100,
                        writeString_ok term s file hm hs hmem]
                      rw [if_neg (by decide)]
                      exact ih rest1 junk args1 (appendBytes file (cstr term s)) (n + 1)
                        hlen2 hm hs htrest1 hnc1
                    · have hmode : ¬ (file.mode ≠ 'w' ∧ file.mode ≠ 'a') := by
                        rintro ⟨h1, h2⟩
                        rcases hm with h | h
                        · exact h1 h
                        · exact h2 h
                      have hnone : writeString term file s = none := by
                        unfold writeString
                        rw [if_neg hmode]
                        exact writeStringLoop_unterminated term s _ hm hs hmem
                      unfold writeFormattedLoop
                      rw [if_pos hc, if_pos rfl]
                      simp only [if_true, if_neg hx99, if_neg hx100, hnone]
              · rw [writeFormattedLoop_default_branch term x _ args file n hm hs hc
                  ⟨hx99, hx100, hx115⟩]
                exact ih rest1 junk args (appendBytes file [37, x]) n hlen2 hm hs htrest1 hnc1
      · have hnc1 : hasCharSpecifier rest = true := by
          unfold hasCharSpecifier at hnc
          rw [if_neg hpct] at hnc
          exact hnc
        show writeFormattedLoop term (c :: (rest ++ term :: junk)) args file n = none
        unfold writeFormattedLoop
        rw [if_pos hc, if_neg hpct]
        simp only [writeChar_ok file c hm hs, if_neg (byte_ne_FILE_END c)]
        exact ih rest junk args (appendBytes file [c]) n hlen1 hm hs htrest hnc1

theorem writeChar_budget_zero (file : File) (b : Byte)
    (hm : file.mode = 'w' ∨ file.mode = 'a') (hs : file.cfile.putcLeft = some 0) :
    writeChar file b = (FILE_END, failedAfter file 0 []) := by
  have hmode : ¬ (file.mode ≠ 'w' ∧ file.mode ≠ 'a') := by
    rintro ⟨h1, h2⟩
    rcases hm with h | h
    · exact h1 h
    · exact h2 h
  have hb := byte_ne_FILE_END b
  unfold FILE_END at hb
  unfold writeChar
  rw [if_neg hmode]
  simp only [putc, hs]
  rw [if_neg (fun h => hb h.symm)]
  simp [failedAfter, hs]

theorem writeChar_budget_succ (file : File) (b : Byte) (j : Nat)
    (hm : file.mode = 'w' ∨ file.mode = 'a') (hs : file.cfile.putcLeft = some (j + 1)) :
    writeChar file b = ((b.val : Int), withBudget (appendBytes file [b]) j) := by
  have hmode : ¬ (file.mode ≠ 'w' ∧ file.mode ≠ 'a') := by
    rintro ⟨h1, h2⟩
    rcases hm with h | h
    · exact h1 h
    · exact h2 h
  unfold writeChar
  rw [if_neg hmode]
  simp only [putc, hs, if_true]
  simp [withBudget, appendBytes]

/-- The run that stops at the first failure, on a sink that takes `j` more
bytes: with at most `j` bytes all of them are written; with more, the first
`j` are written, one more `putc` is called and fails, and none after it. -/
theorem pushBytes_budget (file : File) (bs : List Byte) (j : Nat)
    (hm : file.mode = 'w' ∨ file.mode = 'a') (hs : file.cfile.putcLeft = some j) :
    pushBytes file bs =
      if bs.length ≤ j then (true, withBudget (appendBytes file bs) (j - bs.length))
      else (false, failedAfter file j bs) := by
  induction bs generalizing file j with
  | nil =>
    rw [if_pos (show ([] : List Byte).length ≤ j from Nat.zero_le _), appendBytes_nil]
    have : withBudget file (j - ([] : List Byte).length) = file := by
      cases file with
      | mk buffer cfile position cbv latch mode =>
        cases cfile with
        | mk content offset freads putcLeft putcs =>
          simp only at hs
          subst hs
          rfl
    rw [this]
    rfl
  | cons b bs ih =>
    rw [pushBytes_cons]
    cases j with
    | zero =>
      rw [writeChar_budget_zero file b hm hs, if_pos rfl, if_neg (by simp)]
      simp [failedAfter]
    | succ j =>
      rw [writeChar_budget_succ file b j hm hs, if_neg (byte_ne_FILE_END b),
        ih (withBudget (appendBytes file [b]) j) j hm rfl]
      simp only [List.length_cons, Nat.add_le_add_iff_right, Nat.add_sub_add_right]
      split_ifs
      · simp [withBudget, appendBytes, Nat.add_assoc, Nat.add_comm]
      · simp [withBudget, appendBytes, failedAfter, Nat.add_assoc, Nat.add_comm,
          Nat.add_left_comm]

theorem pushBytes_budget_fails (file : File) (bs : List Byte) (j : Nat)
    (hm : file.mode = 'w' ∨ file.mode = 'a') (hs : file.cfile.putcLeft = some j)
    (hj : j < bs.length) : pushBytes file bs = (false, failedAfter file j bs) := by
  rw [pushBytes_budget file bs j hm hs, if_neg (show ¬ bs.length ≤ j by omega)]

/-- C23: `writeString`, `writeLine` and `writeFormatted` fail fast.  On a
write-mode handle whose sink takes `j` more bytes, so that the `(j+1)`-th
`writeChar` is the first to fail: whenever the function has more than `j`
bytes to write (`out`, the bytes it writes on a sink that never fails), it
returns its failure signal (`FILE_END`, -1 for `writeFormatted`), the sink has
received exactly the first `j` bytes of `out`, and exactly `j + 1` calls of
`putc` were made, the failed one being the last.  For `writeFormatted` the
statement is about the formats and arguments on which the call has a defined
result on a sink that never fails; a format in which a `%c` is met is not one
of them. -/
theorem writers_fail_fast (term : Byte) (file : File) (j : Nat)
    (hm : file.mode = 'w' ∨ file.mode = 'a') (hs : file.cfile.putcLeft = some j)
    (_hterm : term.val < 128) :
    (∀ str, term ∈ str → j < (cstr term str).length →
      writeString term file str = some (FILE_END, failedAfter file j (cstr term str))) ∧
    (∀ line, term ∈ line → j < (cstr term line ++ [10]).length →
      writeLine term file line =
        some (FILE_END, failedAfter file j (cstr term line ++ [10]))) ∧
    (∀ str args r ideal,
      writeFormatted term (neverFailing file) str args = some (r, ideal) →
      ∃ out, ideal = appendBytes (neverFailing file) out ∧
        (j < out.length →
          writeFormatted term file str args = some (-1, failedAfter file j out))) := by
  have hmode : ¬ (file.mode ≠ 'w' ∧ file.mode ≠ 'a') := by
    rintro ⟨h1, h2⟩
    rcases hm with h | h
    · exact h1 h
    · exact h2 h
  refine ⟨?_, ?_, ?_⟩
  · intro str ht hj
    rw [writeString_push term str file hm ht, pushBytes_budget_fails file _ j hm hs hj]
    rfl
  · intro line ht hj
    rw [writeLine_push term line file hm ht, pushBytes_budget_fails file _ j hm hs hj]
    rfl
  · intro str args r ideal hideal
    unfold writeFormatted at hideal
    rw [if_neg (show ¬ ((neverFailing file).mode ≠ 'w' ∧ (neverFailing file).mode ≠ 'a') from
      hmode)] at hideal
    obtain ⟨out, h1, h2⟩ :=
      writeFormattedLoop_push term str.length str args file 0 r ideal (Nat.le_refl _) hm hideal
    refine ⟨out, h1, ?_⟩
    intro hj
    unfold writeFormatted
    rw [if_neg hmode, h2, pushBytes_budget_fails file out j hm hs hj]
    rfl

theorem writers_fail_fast_witness :
    writeString 0 (withBudget writeHandle 2) [97, 98, 99, 0] =
      some (FILE_END, failedAfter (withBudget writeHandle 2) 2 (cstr 0 [97, 98, 99, 0])) ∧
    writeLine 0 (withBudget writeHandle 2) [97, 98, 0] =
      some (FILE_END, failedAfter (withBudget writeHandle 2) 2 (cstr 0 [97, 98, 0] ++ [10])) ∧
    (failedAfter (withBudget writeHandle 2) 2 (cstr 0 [97, 98, 99, 0])).cfile.content = [97, 98] ∧
    (failedAfter (withBudget writeHandle 2) 2 (cstr 0 [97, 98, 99, 0])).cfile.putcs = 3 ∧
    ∃ out, appendBytes (neverFailing (withBudget writeHandle 2)) [45, 52, 50, 45, 104, 105] =
        appendBytes (neverFailing (withBudget writeHandle 2)) out ∧
      (2 < out.length →
        writeFormatted 0 (withBudget writeHandle 2) [37, 100, 45, 37, 115, 0]
            [Arg.int (-42), Arg.str [104, 105, 0]] =
          some (-1, failedAfter (withBudget writeHandle 2) 2 out)) :=
  ⟨(writers_fail_fast 0 (withBudget writeHandle 2) 2 (Or.inl rfl) rfl (by decide)).1
      [97, 98, 99, 0] (by decide) (by decide),
    (writers_fail_fast 0 (withBudget writeHandle 2) 2 (Or.inl rfl) rfl (by decide)).2.1
      [97, 98, 0] (by decide) (by decide),
    rfl, rfl,
    (writers_fail_fast 0 (withBudget writeHandle 2) 2 (Or.inl rfl) rfl (by decide)).2.2
      [37, 100, 45, 37, 115, 0] [Arg.int (-42), Arg.str [104, 105, 0]] 2
      (appendBytes (neverFailing (withBudget writeHandle 2)) [45, 52, 50, 45, 104, 105]) rfl⟩

end IoLib
